import Mathlib

/-!
Shallow embedding of the streaming slide-generation core of the
ai-presentation-generator repository: `generateSlidesStream` and its record
decoder (`services/geminiService.ts`).  Text is modelled as `List Char`, one
atom per code point; the asynchronous chunk source is modelled as a
`List (List Char)`; the generator's yields are collected into a list of
snapshots, and the post-stream validation error into an `Option`.
-/

namespace SlidesStream

/-- Characters treated as whitespace by the JS regex class `\s` and by
`String.prototype.trim` (the subset relevant here). -/
def isJsWS (c : Char) : Bool :=
  c == ' ' || c == '\t' || c == '\n' || c == '\r' || c == '\x0b' || c == '\x0c' ||
  c == '\xa0' || c == ' ' || c == ' ' || c == '﻿'

/-- JS `String.prototype.trim`, as applied to the extracted record text. -/
def jsTrim (s : List Char) : List Char :=
  ((s.dropWhile isJsWS).reverse.dropWhile isJsWS).reverse

/-- Decidable prefix test on char lists, the building block for the model of
`String.prototype.indexOf`. -/
def isPre : List Char → List Char → Bool
  | [], _ => true
  | _ :: _, [] => false
  | a :: as, b :: bs => a == b && isPre as bs

/-- Index of the first occurrence of `p` as a contiguous substring of `s`
(JS `String.prototype.indexOf`), `none` when absent. -/
def indexOfSub (p : List Char) : List Char → Option Nat
  | [] => if isPre p [] then some 0 else none
  | c :: s => if isPre p (c :: s) then some 0 else (indexOfSub p s).map (· + 1)

/-- JS `String.prototype.includes`. -/
def containsSub (p s : List Char) : Bool :=
  (indexOfSub p s).isSome

/-- JS `String.prototype.substring` with two arguments: JS swaps out-of-order
arguments and clamps both to the string bounds. -/
def jsSubstring (s : List Char) (a b : Nat) : List Char :=
  (s.take (max a b)).drop (min a b)

/-- The literal record start marker from the prompt contract. -/
def slideStartDelim : List Char := "SLIDE_START_DELIMITER".data

/-- The literal record end marker from the prompt contract. -/
def slideEndDelim : List Char := "SLIDE_END_DELIMITER".data

/-- The literal terminal marker from the prompt contract. -/
def completeDelim : List Char := "PRESENTATION_COMPLETE_DELIMITER".data

/-- The literal `"main_title"` (with quotes) guarding the title regex. -/
def titleKey : List Char := "\x22main_title\x22".data

/-- The leading literal of the title regex `\x7b"main_title":`. -/
def titleLit : List Char := "\x7b\x22main_title\x22:".data

/-- Longest quote-free run at the head of `s` (the regex atom `[^"]*`). -/
def takeNotQuote : List Char → List Char
  | [] => []
  | c :: s => if c = '\x22' then [] else c :: takeNotQuote s

/-- Remainder of `s` after its longest leading quote-free run. -/
def dropNotQuote : List Char → List Char
  | [] => []
  | c :: s => if c = '\x22' then c :: s else dropNotQuote s

/-- Attempt the title regex `\x7b"main_title":\s*"([^"]+)"\x7d` at the head of
`s`; on success return the captured title and the rest of `s` after the
match. -/
def titleMatchHere (s : List Char) : Option (List Char × List Char) :=
  if isPre titleLit s then
    match (s.drop titleLit.length).dropWhile isJsWS with
    | '\x22' :: s2 =>
      match takeNotQuote s2, dropNotQuote s2 with
      | [], _ => none
      | ttl, '\x22' :: '\x7d' :: s3 => some (ttl, s3)
      | _, _ => none
    | _ => none
  else none

/-- Leftmost match of the title regex in the buffer: returns the captured
title and the buffer with the matched text spliced out (the source removes
the match with `String.replace`, which strips the first occurrence of the
matched text; for this pattern the first occurrence of the matched text is
the match itself). -/
def findTitle : List Char → Option (List Char × List Char)
  | [] => none
  | c :: s =>
    match titleMatchHere (c :: s) with
    | some r => some r
    | none => (findTitle s).map (fun r => (r.1, c :: r.2))

/-- Runtime JSON values as produced by `JSON.parse`.  Numbers are kept in
decimal mantissa/exponent-of-ten form; the driver never computes with them,
it only tests truthiness. -/
inductive JSVal where
  | null : JSVal
  | bool : Bool → JSVal
  | num : Int → Int → JSVal
  | str : List Char → JSVal
  | arr : List JSVal → JSVal
  | obj : List (List Char × JSVal) → JSVal

/-- JS truthiness of a JSON value: `null`, `false`, `0` and `""` are falsy;
every array and object is truthy. -/
def truthy : JSVal → Bool
  | .null => false
  | .bool b => b
  | .num m _ => m != 0
  | .str s => !s.isEmpty
  | .arr _ => true
  | .obj _ => true

/-- JSON whitespace (strict set accepted by `JSON.parse`). -/
def isJsonWS (c : Char) : Bool :=
  c == ' ' || c == '\t' || c == '\n' || c == '\r'

/-- Value of a hexadecimal digit, for `\u` escapes. -/
def hexVal (c : Char) : Option Nat :=
  if '0' ≤ c ∧ c ≤ '9' then some (c.toNat - 48)
  else if 'a' ≤ c ∧ c ≤ 'f' then some (c.toNat - 87)
  else if 'A' ≤ c ∧ c ≤ 'F' then some (c.toNat - 55)
  else none

/-- Parse the body of a JSON string (the opening quote already consumed):
returns the decoded characters and the input after the closing quote.  Raw
control characters and invalid escapes are rejected, as by `JSON.parse`. -/
def pString : List Char → Option (List Char × List Char)
  | [] => none
  | '\x22' :: r => some ([], r)
  | '\\' :: e :: r =>
    match e with
    | '\x22' => (pString r).map (fun p => ('\x22' :: p.1, p.2))
    | '\\' => (pString r).map (fun p => ('\\' :: p.1, p.2))
    | '/' => (pString r).map (fun p => ('/' :: p.1, p.2))
    | 'b' => (pString r).map (fun p => ('\x08' :: p.1, p.2))
    | 'f' => (pString r).map (fun p => ('\x0c' :: p.1, p.2))
    | 'n' => (pString r).map (fun p => ('\n' :: p.1, p.2))
    | 'r' => (pString r).map (fun p => ('\r' :: p.1, p.2))
    | 't' => (pString r).map (fun p => ('\t' :: p.1, p.2))
    | 'u' =>
      match r with
      | h1 :: h2 :: h3 :: h4 :: r4 =>
        match hexVal h1, hexVal h2, hexVal h3, hexVal h4 with
        | some a, some b, some c, some d =>
          (pString r4).map
            (fun p => (Char.ofNat (((a * 16 + b) * 16 + c) * 16 + d) :: p.1, p.2))
        | _, _, _, _ => none
      | _ => none
    | _ => none
  | c :: r => if c.toNat < 32 then none else (pString r).map (fun p => (c :: p.1, p.2))

/-- Read a maximal run of decimal digits, accumulating their value onto `acc`
and counting them onto `k`. -/
def pDigits : List Char → Nat → Nat → Nat × Nat × List Char
  | c :: s, acc, k =>
    if c.isDigit then pDigits s (acc * 10 + (c.toNat - 48)) (k + 1) else (acc, k, c :: s)
  | [], acc, k => (acc, k, [])

/-- Parse the fraction and exponent tail of a JSON number whose integer part
`ip` (and sign) have been read. -/
def pNumTail (neg : Bool) (ip : Nat) (s : List Char) : Option (JSVal × List Char) :=
  let fr : Option (Nat × Nat × List Char) :=
    match s with
    | '.' :: c :: r =>
      if c.isDigit then
        let t := pDigits (c :: r) ip 0
        some (t.1, t.2.1, t.2.2)
      else none
    | _ => some (ip, 0, s)
  match fr with
  | none => none
  | some (m, k, s2) =>
    let mz : Int := if neg then -(m : Int) else (m : Int)
    match s2 with
    | c :: r =>
      if c == 'e' || c == 'E' then
        let se : Bool × List Char :=
          match r with
          | '+' :: rr => (false, rr)
          | '-' :: rr => (true, rr)
          | _ => (false, r)
        match se.2 with
        | d :: rr =>
          if d.isDigit then
            let t := pDigits (d :: rr) 0 0
            let ev : Int := if se.1 then -(t.1 : Int) else (t.1 : Int)
            some (.num mz (ev - (k : Int)), t.2.2)
          else none
        | [] => none
      else some (.num mz (-(k : Int)), s2)
    | [] => some (.num mz (-(k : Int)), [])

/-- Parse a JSON number (optional minus, no leading zeros, optional fraction
and exponent). -/
def pNumber (s : List Char) : Option (JSVal × List Char) :=
  let sg : Bool × List Char :=
    match s with
    | '-' :: r => (true, r)
    | _ => (false, s)
  match sg.2 with
  | '0' :: r =>
    match r with
    | c :: _ => if c.isDigit then none else pNumTail sg.1 0 r
    | [] => pNumTail sg.1 0 []
  | c :: r =>
    if c.isDigit then
      let t := pDigits r (c.toNat - 48) 1
      pNumTail sg.1 t.1 t.2.2
    else none
  | [] => none

/-- Replace the value of `k` in place when present, else append — the
duplicate-member semantics of `JSON.parse` (last value wins, first position
kept). -/
def insertKV : List (List Char × JSVal) → List Char → JSVal → List (List Char × JSVal)
  | [], k, v => [(k, v)]
  | (k0, v0) :: rest, k, v =>
    if k0 = k then (k0, v) :: rest else (k0, v0) :: insertKV rest k v

mutual

/-- Fueled JSON value parser (fuel bounds the recursion depth; `parseJson`
supplies enough for its input). -/
def pValue : Nat → List Char → Option (JSVal × List Char)
  | 0, _ => none
  | fuel + 1, s =>
    match s.dropWhile isJsonWS with
    | 'n' :: 'u' :: 'l' :: 'l' :: r => some (.null, r)
    | 't' :: 'r' :: 'u' :: 'e' :: r => some (.bool true, r)
    | 'f' :: 'a' :: 'l' :: 's' :: 'e' :: r => some (.bool false, r)
    | '\x22' :: r => (pString r).map (fun p => (.str p.1, p.2))
    | '[' :: r =>
      match r.dropWhile isJsonWS with
      | ']' :: r2 => some (.arr [], r2)
      | _ => pElems fuel r []
    | '\x7b' :: r =>
      match r.dropWhile isJsonWS with
      | '\x7d' :: r2 => some (.obj [], r2)
      | _ => pMembers fuel r []
    | c :: r => if c == '-' || c.isDigit then pNumber (c :: r) else none
    | [] => none

/-- Fueled parser for the elements of a non-empty JSON array. -/
def pElems : Nat → List Char → List JSVal → Option (JSVal × List Char)
  | 0, _, _ => none
  | fuel + 1, s, acc =>
    match pValue fuel s with
    | some (v, r) =>
      match r.dropWhile isJsonWS with
      | ',' :: r2 => pElems fuel r2 (acc ++ [v])
      | ']' :: r2 => some (.arr (acc ++ [v]), r2)
      | _ => none
    | none => none

/-- Fueled parser for the members of a non-empty JSON object. -/
def pMembers : Nat → List Char → List (List Char × JSVal) → Option (JSVal × List Char)
  | 0, _, _ => none
  | fuel + 1, s, acc =>
    match s.dropWhile isJsonWS with
    | '\x22' :: r =>
      match pString r with
      | some (key, r1) =>
        match r1.dropWhile isJsonWS with
        | ':' :: r2 =>
          match pValue fuel r2 with
          | some (v, r3) =>
            match r3.dropWhile isJsonWS with
            | ',' :: r4 => pMembers fuel r4 (insertKV acc key v)
            | '\x7d' :: r4 => some (.obj (insertKV acc key v), r4)
            | _ => none
          | none => none
        | _ => none
      | none => none
    | _ => none

end

/-- Model of `JSON.parse`: parse one complete JSON text (surrounding
whitespace allowed); `none` models a thrown `SyntaxError`. -/
def parseJson (s : List Char) : Option JSVal :=
  match pValue (2 * s.length + 4) s with
  | some (v, rest) => if (rest.dropWhile isJsonWS).isEmpty then some v else none
  | none => none

/-- A decoded slide as constructed at runtime (source lines 434-444).  The
fields hold whatever JSON values the record carried; the TypeScript `Slide`
interface is not enforced at runtime beyond truthiness of `title`,
`content` and `layout`. -/
structure Slide where
  title : JSVal
  content : JSVal
  layout : JSVal
  image_prompt : JSVal
  speaker_notes : JSVal
  subtitle : JSVal
  keyPoints : JSVal
  examples : JSVal
  statistics : JSVal

/-- Association-list lookup used for JS property access on a parsed object. -/
def lookupKV : List (List Char × JSVal) → List Char → Option JSVal
  | [], _ => none
  | (k0, v) :: rest, k => if k0 = k then some v else lookupKV rest k

/-- JS property access `v.k` on a parsed JSON value; `none` stands for
`undefined` (and for the `TypeError` on `null`, which the surrounding
`try`/`catch` turns into the same dropped-record observable). -/
def getField : JSVal → List Char → Option JSVal
  | .obj kvs, k => lookupKV kvs k
  | _, _ => none

/-- The JS defaulting idiom `x || ''`. -/
def orEmptyStr (o : Option JSVal) : JSVal :=
  match o with
  | some v => if truthy v then v else .str []
  | none => .str []

/-- The JS defaulting idiom `x || []`. -/
def orEmptyArr (o : Option JSVal) : JSVal :=
  match o with
  | some v => if truthy v then v else .arr []
  | none => .arr []

def kTitle : List Char := "title".data
def kContent : List Char := "content".data
def kLayout : List Char := "layout".data
def kImagePrompt : List Char := "image_prompt".data
def kSpeakerNotes : List Char := "speaker_notes".data
def kSubtitle : List Char := "subtitle".data
def kKeyPoints : List Char := "keyPoints".data
def kExamples : List Char := "examples".data
def kStatistics : List Char := "statistics".data

/-- Validation and defaulting applied to one parsed record (source lines
433-444): `title`, `content`, `layout` must be truthy; the optional fields
default to the empty string / empty array when missing or falsy. -/
def slideOfJson (v : JSVal) : Option Slide :=
  match getField v kTitle, getField v kContent, getField v kLayout with
  | some t, some c, some l =>
    if truthy t && truthy c && truthy l then
      some { title := t, content := c, layout := l,
             image_prompt := orEmptyStr (getField v kImagePrompt),
             speaker_notes := orEmptyStr (getField v kSpeakerNotes),
             subtitle := orEmptyStr (getField v kSubtitle),
             keyPoints := orEmptyArr (getField v kKeyPoints),
             examples := orEmptyArr (getField v kExamples),
             statistics := orEmptyStr (getField v kStatistics) }
    else none
  | _, _, _ => none

/-- Full record decode: `JSON.parse` on the extracted text, then validation
and defaulting.  `none` covers both the caught parse error and the failed
validation — the record is dropped either way and the stream continues. -/
def decodeSlideText (s : List Char) : Option Slide :=
  match parseJson s with
  | some v => slideOfJson v
  | none => none

/-- One yielded value of the stream: the source's partial-presentation record
with fields `main_title`, `slides` and `isComplete`. -/
structure Snapshot where
  main_title : List Char
  slides : List Slide
  isComplete : Bool

/-- The mutable locals of `generateSlidesStream` between chunk arrivals
(`slideIndex` is always `slides.length` and is not tracked separately). -/
structure DriverState where
  buffer : List Char
  mainTitle : List Char
  slides : List Slide
  titleYielded : Bool

/-- Result of the per-chunk record-extraction `while` loop: the shrunken
buffer, the grown slide accumulator, the snapshots yielded inside the loop,
and whether the loop ran to a genuine exit (`fuelOk = false` only when the
fuel ran out before the loop condition failed). -/
structure ExtractResult where
  buffer : List Char
  slides : List Slide
  snaps : List Snapshot
  fuelOk : Bool

/-- The record-extraction loop (source lines 422-466), with explicit fuel:
while the buffer contains both markers, locate their first occurrences; if
the start marker comes first, decode the text strictly between them (a
failed decode is swallowed and yields nothing) and cut the buffer just past
the end marker; otherwise exit the loop and wait for more input. -/
def extractLoopF (title : List Char) : Nat → List Char → List Slide → ExtractResult
  | 0, buf, slides =>
    if containsSub slideStartDelim buf && containsSub slideEndDelim buf then
      ⟨buf, slides, [], false⟩
    else ⟨buf, slides, [], true⟩
  | fuel + 1, buf, slides =>
    if containsSub slideStartDelim buf && containsSub slideEndDelim buf then
      let s := (indexOfSub slideStartDelim buf).getD 0
      let e := (indexOfSub slideEndDelim buf).getD 0
      if s < e then
        let content := jsTrim (jsSubstring buf (s + slideStartDelim.length) e)
        let buf2 := buf.drop (e + slideEndDelim.length)
        match decodeSlideText content with
        | some sl =>
          let slides2 := slides ++ [sl]
          let r := extractLoopF title fuel buf2 slides2
          ⟨r.buffer, r.slides, ⟨title, slides2, false⟩ :: r.snaps, r.fuelOk⟩
        | none => extractLoopF title fuel buf2 slides
      else ⟨buf, slides, [], true⟩
    else ⟨buf, slides, [], true⟩

/-- Result of processing one chunk: the new driver state, the snapshots
yielded while processing it, and whether the terminal marker was detected
(which breaks the chunk-consumption loop). -/
structure ChunkResult where
  state : DriverState
  snaps : List Snapshot
  broke : Bool

/-- The tail of the per-chunk processing, after the title-capture step has
produced the current title `title1` and the (possibly stripped) buffer
`buf1`: emit the one-shot title snapshot when a title is known, not yet
announced, and no slide has completed; run the extraction loop; finally test
for the terminal marker. -/
def chunkStep (st : DriverState) (title1 buf1 : List Char) : ChunkResult :=
  let ty : List Snapshot × Bool :=
    if !title1.isEmpty && !st.titleYielded && st.slides.isEmpty then
      ([⟨title1, [], false⟩], true)
    else ([], st.titleYielded)
  let r := extractLoopF title1 buf1.length buf1 st.slides
  ⟨⟨r.buffer, title1, r.slides, ty.2⟩, ty.1 ++ r.snaps, containsSub completeDelim r.buffer⟩

/-- Processing of one arriving chunk (the body of the `for await` loop,
source lines 400-473): append to the buffer; capture and strip the title on
its first complete appearance; then run the snapshot/extraction/completion
tail. -/
def processChunk (st : DriverState) (text : List Char) : ChunkResult :=
  if text.isEmpty then ⟨st, [], false⟩ else
  let buf0 := st.buffer ++ text
  let tb : List Char × List Char :=
    if st.mainTitle.isEmpty && containsSub titleKey buf0 then
      match findTitle buf0 with
      | some r => r
      | none => (st.mainTitle, buf0)
    else (st.mainTitle, buf0)
  chunkStep st tb.1 tb.2

/-- The chunk-consumption loop: process chunks in order, stopping as soon as
one of them surfaces the terminal marker (remaining chunks are discarded,
as the source `break`s out of the `for await`). -/
def runChunks : List (List Char) → DriverState → DriverState × List Snapshot
  | [], st => (st, [])
  | c :: cs, st =>
    let r := processChunk st c
    if r.broke then (r.state, r.snaps)
    else
      let rest := runChunks cs r.state
      (rest.1, r.snaps ++ rest.2)

/-- The initial driver state (`buffer = '' `, `mainTitle = ''`,
`slides = []`, `titleYielded = false`). -/
def initState : DriverState := ⟨[], [], [], false⟩

/-- The error message the wrapping `catch` rethrows when post-stream
validation fails. -/
def streamErrMsg : List Char :=
  "Failed to get a valid streaming response from the AI model.".data

/-- The whole generator run on a chunk source that ends (normally or via the
terminal marker): the ordered list of yielded snapshots — always ending with
the final `isComplete = true` snapshot (source lines 475-482) — paired with
the error that propagates to the consumer afterwards when post-stream
validation finds no title or zero slides (source lines 484-492).  The error
value comes after every yield: a consumer sees the full snapshot list before
the error. -/
def generateSlidesStream (chunks : List (List Char)) : List Snapshot × Option (List Char) :=
  let r := runChunks chunks initState
  let fin : Snapshot := ⟨r.1.mainTitle, r.1.slides, true⟩
  let err := if r.1.mainTitle.isEmpty || r.1.slides.isEmpty then some streamErrMsg else none
  (r.2 ++ [fin], err)

/-- Occurrence of `p` as a substring of `s` at index `i`. -/
def occAt (p s : List Char) (i : Nat) : Prop :=
  isPre p (s.drop i) = true

/-- The serialized title object exactly as the prompt contract prescribes:
`\x7b"main_title": "<title>"\x7d`. -/
def titleObjText (t : List Char) : List Char :=
  "\x7b\x22main_title\x22: \x22".data ++ t ++ "\x22\x7d".data

/-- One serialized record block: filler text before the record, the start
marker, the record body, and the end marker. -/
def recBlock (g b : List Char) : List Char :=
  g ++ slideStartDelim ++ b ++ slideEndDelim

/-- Serialize a list of record blocks followed by a trailing text. -/
def recsRender : List (List Char × List Char) → List Char → List Char
  | [], tail => tail
  | (g, b) :: rest, tail => recBlock g b ++ recsRender rest tail

/-- Length of one serialized record block. -/
def blockLen (g b : List Char) : Nat :=
  g.length + slideStartDelim.length + b.length + slideEndDelim.length

/-- A well-formed raw model output, by parts: the title, the records (each
with the filler preceding it), and the filler before the terminal marker. -/
structure WFInput where
  title : List Char
  recs : List (List Char × List Char)
  tailGap : List Char

/-- The full raw output text of a well-formed input. -/
def renderW (w : WFInput) : List Char :=
  titleObjText w.title ++ recsRender w.recs (w.tailGap ++ completeDelim)

/-- Well-formedness of the title part: nonempty, free of quotes and opening
braces (so the title regex matches it exactly), and the serialized title
object contains no end or terminal marker. -/
def goodTitle (t : List Char) : Prop :=
  t ≠ [] ∧ (∀ c ∈ t, c ≠ '\x22' ∧ c ≠ '\x7b') ∧
  containsSub slideEndDelim (titleObjText t) = false ∧
  containsSub completeDelim (titleObjText t) = false

/-- Well-formedness of one record block: no occurrence of the start marker
before its designated position, and no occurrence of the end or terminal
marker anywhere before the designated end marker is complete. -/
def goodRec (g b : List Char) : Prop :=
  containsSub slideStartDelim (g ++ slideStartDelim.take (slideStartDelim.length - 1)) = false ∧
  containsSub slideEndDelim
    (g ++ slideStartDelim ++ b ++ slideEndDelim.take (slideEndDelim.length - 1)) = false ∧
  containsSub completeDelim
    (g ++ slideStartDelim ++ b ++ slideEndDelim.take (slideEndDelim.length - 1)) = false

/-- Well-formedness of the trailing part: no end marker at all (so extraction
idles there) and no terminal marker before the designated one is complete. -/
def goodTail (gl : List Char) : Prop :=
  containsSub slideEndDelim (gl ++ completeDelim) = false ∧
  containsSub completeDelim (gl ++ completeDelim.take (completeDelim.length - 1)) = false

/-- Well-formedness of a whole raw output. -/
def WF (w : WFInput) : Prop :=
  goodTitle w.title ∧ (∀ gb ∈ w.recs, goodRec gb.1 gb.2) ∧ goodTail w.tailGap

/-- Total serialized length of a record-block list. -/
def sumBlock : List (List Char × List Char) → Nat
  | [] => 0
  | (g, b) :: rest => blockLen g b + sumBlock rest

/-- How many leading record blocks are complete within the first `k`
characters of their serialization. -/
def cnt : List (List Char × List Char) → Nat → Nat
  | [], _ => 0
  | (g, b) :: rest, k =>
    if blockLen g b ≤ k then cnt rest (k - blockLen g b) + 1 else 0

/-- Total serialized length of the complete leading record blocks within the
first `k` characters. -/
def consumedLen : List (List Char × List Char) → Nat → Nat
  | [], _ => 0
  | (g, b) :: rest, k =>
    if blockLen g b ≤ k then blockLen g b + consumedLen rest (k - blockLen g b) else 0

/-- Decode a list of record bodies in order, threading the slide accumulator
and collecting the snapshot that each accepted slide triggers. -/
def accSlides (title : List Char) : List (List Char) → List Slide → List Slide × List Snapshot
  | [], acc => (acc, [])
  | b :: rest, acc =>
    match decodeSlideText (jsTrim b) with
    | some sl =>
      let acc2 := acc ++ [sl]
      let r := accSlides title rest acc2
      (r.1, ⟨title, acc2, false⟩ :: r.2)
    | none => accSlides title rest acc

/-- The canonical driver state after any chunking of the first `n` characters
of `renderW w` has been processed: before the title object is complete the
whole prefix sits in the buffer; afterwards the title is captured and every
complete record block has been extracted. -/
def canonState (w : WFInput) (n : Nat) : DriverState :=
  if n < (titleObjText w.title).length then ⟨(renderW w).take n, [], [], false⟩
  else
    ⟨(recsRender (w.recs.drop (cnt w.recs (n - (titleObjText w.title).length)))
        (w.tailGap ++ completeDelim)).take
          (n - (titleObjText w.title).length -
            consumedLen w.recs (n - (titleObjText w.title).length)),
     w.title,
     (accSlides w.title
        ((w.recs.take (cnt w.recs (n - (titleObjText w.title).length))).map
          (fun gb => gb.2)) []).1,
     true⟩

/-- The canonical snapshots emitted after the first `n` characters of
`renderW w` have been processed, independent of chunking. -/
def canonSnaps (w : WFInput) (n : Nat) : List Snapshot :=
  if n < (titleObjText w.title).length then []
  else
    ⟨w.title, [], false⟩ ::
      (accSlides w.title
        ((w.recs.take (cnt w.recs (n - (titleObjText w.title).length))).map
          (fun gb => gb.2)) []).2

/-! ### A reference-passing (heap) model of the same driver

The source pushes decoded slides into one mutable array
`presentation.slides`, yields `[...presentation.slides]` (a fresh copy) on
every per-slide snapshot, yields a freshly allocated `[]` on the title
snapshot, and yields `presentation.slides` itself (no copy) on the final
snapshot.  To state the aliasing claim faithfully we re-run the driver over
an explicit store of slide arrays: `store : List (List Slide)` is the heap,
an address is an index into it, the accumulator lives at a fixed address,
`push` mutates the cell in place, and a spread copy allocates a new cell. -/

/-- Result of the extraction loop in the store model: the evolved heap, the
shrunken buffer, the yielded snapshots (each carrying the address of its
slides array), and the fuel flag. -/
structure ExtractResultR where
  store : List (List Slide)
  buffer : List Char
  snaps : List (List Char × Nat × Bool)
  fuelOk : Bool

/-- The extraction loop over the store: `push` is an in-place `List.set` on
the accumulator cell `a`; the snapshot's slides array is a freshly appended
copy of the accumulator cell (`[...presentation.slides]`). -/
def extractLoopR (title : List Char) : Nat → List Char → List (List Slide) → Nat → ExtractResultR
  | 0, buf, store, _ =>
    if containsSub slideStartDelim buf && containsSub slideEndDelim buf then
      ⟨store, buf, [], false⟩
    else ⟨store, buf, [], true⟩
  | fuel + 1, buf, store, a =>
    if containsSub slideStartDelim buf && containsSub slideEndDelim buf then
      let s := (indexOfSub slideStartDelim buf).getD 0
      let e := (indexOfSub slideEndDelim buf).getD 0
      if s < e then
        let content := jsTrim (jsSubstring buf (s + slideStartDelim.length) e)
        let buf2 := buf.drop (e + slideEndDelim.length)
        match decodeSlideText content with
        | some sl =>
          let store2 := store.set a (store.getD a [] ++ [sl])
          let store3 := store2 ++ [store2.getD a []]
          let r := extractLoopR title fuel buf2 store3 a
          ⟨r.store, r.buffer, (title, store2.length, false) :: r.snaps, r.fuelOk⟩
        | none => extractLoopR title fuel buf2 store a
      else ⟨store, buf, [], true⟩
    else ⟨store, buf, [], true⟩

/-- The driver locals in the store model: the slide accumulator is the
address `acc` of a heap cell rather than an immutable list. -/
structure DriverStateR where
  buffer : List Char
  mainTitle : List Char
  acc : Nat
  titleYielded : Bool

/-- Result of one chunk in the store model. -/
structure ChunkResultR where
  state : DriverStateR
  store : List (List Slide)
  snaps : List (List Char × Nat × Bool)
  broke : Bool

/-- The per-chunk tail in the store model: the title snapshot's slides array
is a freshly allocated empty cell (`slides: []`). -/
def chunkStepR (st : DriverStateR) (store : List (List Slide)) (title1 buf1 : List Char) :
    ChunkResultR :=
  let ty : List (List Char × Nat × Bool) × Bool × List (List Slide) :=
    if !title1.isEmpty && !st.titleYielded && (store.getD st.acc []).isEmpty then
      ([(title1, store.length, false)], true, store ++ [[]])
    else ([], st.titleYielded, store)
  let r := extractLoopR title1 buf1.length buf1 ty.2.2 st.acc
  ⟨⟨r.buffer, title1, st.acc, ty.2.1⟩, r.store, ty.1 ++ r.snaps, containsSub completeDelim r.buffer⟩

/-- One arriving chunk in the store model (same title-capture step as the
pure model). -/
def processChunkR (st : DriverStateR) (store : List (List Slide)) (text : List Char) :
    ChunkResultR :=
  if text.isEmpty then ⟨st, store, [], false⟩ else
  let buf0 := st.buffer ++ text
  let tb : List Char × List Char :=
    if st.mainTitle.isEmpty && containsSub titleKey buf0 then
      match findTitle buf0 with
      | some r => r
      | none => (st.mainTitle, buf0)
    else (st.mainTitle, buf0)
  chunkStepR st store tb.1 tb.2

/-- The chunk-consumption loop in the store model. -/
def runChunksR : List (List Char) → DriverStateR → List (List Slide) →
    DriverStateR × List (List Slide) × List (List Char × Nat × Bool)
  | [], st, store => (st, store, [])
  | c :: cs, st, store =>
    let r := processChunkR st store c
    if r.broke then (r.state, r.store, r.snaps)
    else
      let rest := runChunksR cs r.state r.store
      (rest.1, rest.2.1, r.snaps ++ rest.2.2)

/-- The whole generator in the store model: the final heap, the accumulator
address, and the yielded snapshots — the final one carries the accumulator
address itself (`slides: presentation.slides`, no copy). -/
def generateSlidesStreamR (chunks : List (List Char)) :
    List (List Slide) × Nat × List (List Char × Nat × Bool) :=
  let r := runChunksR chunks ⟨[], [], 0, false⟩ [[]]
  (r.2.1, r.1.acc, r.2.2 ++ [(r.1.mainTitle, r.1.acc, true)])

/-- Observation of a store-model snapshot: read its slides array out of a
heap. -/
def derefSnap (store : List (List Slide)) (s : List Char × Nat × Bool) : Snapshot :=
  ⟨s.1, store.getD s.2.1 [], s.2.2⟩

/-! ### Concrete inputs used to instantiate the theorems -/

/-- The record body used by the demo inputs: one minimal valid slide record. -/
def bodyT1 : List Char :=
  "\n\x7b\x22title\x22:\x22T1\x22,\x22content\x22:\x22C1\x22,\x22layout\x22:\x22quote\x22\x7d\n".data

/-- A second valid record body. -/
def bodyT2 : List Char :=
  "\n\x7b\x22title\x22:\x22T2\x22,\x22content\x22:\x22C2\x22,\x22layout\x22:\x22quote\x22\x7d\n".data

/-- A record body that fails `JSON.parse`. -/
def bodyBad : List Char := "\n\x7b\x22title\x22: \x7d\n".data

/-- The slide `bodyT1` decodes to. -/
def sDemo1 : Slide :=
  ⟨JSVal.str "T1".data, JSVal.str "C1".data, JSVal.str "quote".data,
   JSVal.str [], JSVal.str [], JSVal.str [], JSVal.arr [], JSVal.arr [], JSVal.str []⟩

/-- The slide `bodyT2` decodes to. -/
def sDemo2 : Slide :=
  ⟨JSVal.str "T2".data, JSVal.str "C2".data, JSVal.str "quote".data,
   JSVal.str [], JSVal.str [], JSVal.str [], JSVal.arr [], JSVal.arr [], JSVal.str []⟩

/-- A concrete well-formed raw output: title, one record, terminal marker. -/
def wDemo : WFInput := ⟨"Demo Deck".data, [("\n".data, bodyT1)], "\n".data⟩

/-- A concrete well-formed raw output with a malformed record between two
valid ones. -/
def wBad : WFInput :=
  ⟨"Demo Deck".data, [("\n".data, bodyT1), ("\n".data, bodyBad), ("\n".data, bodyT2)], "\n".data⟩

/-- The demo raw text split one character per chunk. -/
def wDemoChunksOne : List (List Char) := (renderW wDemo).map (fun c => [c])

/-- The demo raw text split in two at an offset that falls inside a marker
token. -/
def wDemoChunksSplit : List (List Char) := [(renderW wDemo).take 30, (renderW wDemo).drop 30]

/-- A chunk source that ends without ever sending the terminal marker. -/
def c5Chunks : List (List Char) := [titleObjText "Demo Deck".data, recBlock "\n".data bodyT1]

/-- A chunk source in which a slide record completes before the title object
arrives. -/
def c4Chunks : List (List Char) :=
  [recBlock [] bodyT1, titleObjText "Late Title".data, completeDelim]

/-- A parsed record carrying only the three required fields. -/
def kvsDemo : List (List Char × JSVal) :=
  [(kTitle, JSVal.str "T".data), (kContent, JSVal.str "C".data),
   (kLayout, JSVal.str "quote".data)]

/-- The slide `kvsDemo` validates to. -/
def slDemo : Slide :=
  ⟨JSVal.str "T".data, JSVal.str "C".data, JSVal.str "quote".data,
   JSVal.str [], JSVal.str [], JSVal.str [], JSVal.arr [], JSVal.arr [], JSVal.str []⟩

/-- The fixed closed set of layout tags named by the specification.  This
definition follows the specification's words, to be compared with what the
code actually enforces. -/
def specLayoutTags : List (List Char) :=
  ["title_only".data, "title_content".data, "content_only".data, "image_left".data,
   "image_right".data, "quote".data, "comparison".data, "timeline".data,
   "process_steps".data, "key_facts".data, "case_study".data, "examples".data,
   "use_cases".data, "benefits".data, "challenges".data]

/-- A record body whose `layout` is a string outside the specification's
closed set. -/
def c8Body : List Char :=
  "\x7b\x22title\x22:\x22T\x22,\x22content\x22:\x22C\x22,\x22layout\x22:\x22bogus_layout\x22\x7d".data

/-- The slide `c8Body` decodes to: the bogus layout is copied verbatim. -/
def c8Slide : Slide :=
  ⟨JSVal.str "T".data, JSVal.str "C".data, JSVal.str "bogus_layout".data,
   JSVal.str [], JSVal.str [], JSVal.str [], JSVal.arr [], JSVal.arr [], JSVal.str []⟩

/-- A buffer holding one complete record with the bogus layout. -/
def c8Buf : List Char := slideStartDelim ++ c8Body ++ slideEndDelim

/-- The parsed form of `c8Body`. -/
def kvsBogus : List (List Char × JSVal) :=
  [(kTitle, JSVal.str "T".data), (kContent, JSVal.str "C".data),
   (kLayout, JSVal.str "bogus_layout".data)]

/-- The optional record fields set explicitly to their empty defaults, as
the idempotence claim words it. -/
def emptyOptionalFields : List (List Char × JSVal) :=
  [(kImagePrompt, JSVal.str []), (kSpeakerNotes, JSVal.str []),
   (kSubtitle, JSVal.str []), (kKeyPoints, JSVal.arr []),
   (kExamples, JSVal.arr []), (kStatistics, JSVal.str [])]

/-! ### String-occurrence lemmas -/

theorem isPre_iff_take (p s : List Char) : isPre p s = true ↔ s.take p.length = p := by
  induction p generalizing s with
  | nil => simp [isPre]
  | cons a as ih =>
    cases s with
    | nil => simp [isPre]
    | cons b bs =>
      simp only [isPre, List.length_cons, List.take_succ_cons, Bool.and_eq_true, beq_iff_eq]
      constructor
      · rintro ⟨rfl, h⟩
        rw [(ih bs).mp h]
      · intro h
        injection h with h1 h2
        exact ⟨h1.symm, (ih bs).mpr h2⟩

theorem isPre_length_le {p s : List Char} (h : isPre p s = true) : p.length ≤ s.length := by
  have h1 := (isPre_iff_take p s).mp h
  have h2 : (s.take p.length).length = p.length := by rw [h1]
  simp only [List.length_take] at h2
  omega

theorem isPre_take (p u : List Char) (m : Nat) (h : p.length ≤ m) :
    isPre p (u.take m) = isPre p u := by
  have h1 : (u.take m).take p.length = u.take p.length := by
    rw [List.take_take, Nat.min_eq_left h]
  cases hu : isPre p u with
  | true => exact (isPre_iff_take _ _).mpr (h1.trans ((isPre_iff_take _ _).mp hu))
  | false =>
    cases ht : isPre p (u.take m) with
    | true =>
      exfalso
      have h2 := (isPre_iff_take _ _).mp ht
      rw [h1] at h2
      have h3 := (isPre_iff_take p u).mpr h2
      rw [hu] at h3
      exact Bool.false_ne_true h3
    | false => rfl

theorem isPre_append (p s r : List Char) (h : p.length ≤ s.length) :
    isPre p (s ++ r) = isPre p s := by
  have h1 : (s ++ r).take s.length = s := by
    rw [List.take_append_eq_append_take, Nat.sub_self, List.take_length, List.take_zero,
      List.append_nil]
  have := isPre_take p (s ++ r) s.length h
  rw [h1] at this
  exact this.symm

theorem isPre_refl_append (p r : List Char) : isPre p (p ++ r) = true := by
  rw [isPre_append p p r (Nat.le_refl _)]
  exact (isPre_iff_take p p).mpr (List.take_length p)

theorem occAt_length {p s : List Char} {i : Nat} (hp : p ≠ []) (h : occAt p s i) :
    i + p.length ≤ s.length := by
  have h1 := isPre_length_le h
  simp only [List.length_drop] at h1
  have h2 : 0 < p.length := List.length_pos.mpr hp
  omega

theorem occAt_append_inner {p s : List Char} (r : List Char) {i : Nat}
    (h : i + p.length ≤ s.length) : occAt p (s ++ r) i ↔ occAt p s i := by
  unfold occAt
  rw [List.drop_append_eq_append_drop, Nat.sub_eq_zero_of_le (by omega : i ≤ s.length),
    List.drop_zero, isPre_append p (s.drop i) r (by simp [List.length_drop]; omega)]

theorem occAt_append_shift (p s r : List Char) (j : Nat) :
    occAt p (s ++ r) (s.length + j) ↔ occAt p r j := by
  unfold occAt
  rw [List.drop_append_eq_append_drop, List.drop_eq_nil_of_le (by omega : s.length ≤ s.length + j),
    Nat.add_sub_cancel_left, List.nil_append]

theorem occAt_take_iff {p : List Char} (hp : p ≠ []) (s : List Char) (k i : Nat) :
    occAt p (s.take k) i ↔ occAt p s i ∧ i + p.length ≤ k := by
  unfold occAt
  have hpl : 0 < p.length := List.length_pos.mpr hp
  rw [List.drop_take]
  constructor
  · intro h
    have h1 := isPre_length_le h
    simp only [List.length_take, List.length_drop] at h1
    have hik : p.length ≤ k - i := by omega
    rw [isPre_take p (s.drop i) (k - i) hik] at h
    exact ⟨h, by omega⟩
  · rintro ⟨h, hik⟩
    rw [isPre_take p (s.drop i) (k - i) (by omega)]
    exact h

theorem indexOfSub_none_no_occ {p s : List Char} (h : indexOfSub p s = none) :
    ∀ i, ¬ occAt p s i := by
  induction s with
  | nil =>
    intro i hocc
    unfold indexOfSub at h
    unfold occAt at hocc
    rw [List.drop_nil] at hocc
    rw [hocc] at h
    simp at h
  | cons c cs ih =>
    unfold indexOfSub at h
    split at h
    · simp at h
    · intro i hocc
      cases i with
      | zero => exact absurd hocc (by assumption)
      | succ j =>
        have hn : indexOfSub p cs = none := by
          cases hi : indexOfSub p cs with
          | none => rfl
          | some v => rw [hi] at h; simp at h
        exact ih hn j (by simpa [occAt] using hocc)

theorem containsSub_false_no_occ {p s : List Char} (h : containsSub p s = false) :
    ∀ i, ¬ occAt p s i := by
  apply indexOfSub_none_no_occ
  unfold containsSub at h
  cases hi : indexOfSub p s with
  | none => rfl
  | some v => rw [hi] at h; simp at h

theorem containsSub_of_occAt {p s : List Char} {i : Nat} (hocc : occAt p s i) :
    containsSub p s = true := by
  cases hc : containsSub p s with
  | false => exact absurd hocc (containsSub_false_no_occ hc i)
  | true => rfl

theorem indexOfSub_eq_some_of {p s : List Char} {d : Nat} (hocc : occAt p s d)
    (hmin : ∀ j, j < d → ¬ occAt p s j) : indexOfSub p s = some d := by
  induction s generalizing d with
  | nil =>
    unfold occAt at hocc
    rw [List.drop_nil] at hocc
    have hd : d = 0 := by
      by_contra hne
      exact hmin 0 (Nat.pos_of_ne_zero hne) (by unfold occAt; rw [List.drop_nil]; exact hocc)
    subst hd
    unfold indexOfSub
    rw [hocc]
    simp
  | cons c cs ih =>
    by_cases h0 : isPre p (c :: cs) = true
    · have hd : d = 0 := by
        by_contra hne
        exact hmin 0 (Nat.pos_of_ne_zero hne) h0
      subst hd
      simp [indexOfSub, h0]
    · cases d with
      | zero => exact absurd hocc h0
      | succ d' =>
        have hrec : indexOfSub p cs = some d' := by
          apply ih (by simpa [occAt] using hocc)
          intro j hj
          have := hmin (j + 1) (by omega)
          simpa [occAt] using this
        simp [indexOfSub, h0, hrec]

theorem take_append_le (x y : List Char) (k : Nat) (h : k ≤ x.length) :
    (x ++ y).take k = x.take k := by
  rw [List.take_append_eq_append_take, Nat.sub_eq_zero_of_le h, List.take_zero,
    List.append_nil]

theorem take_append_ge (x y : List Char) (k : Nat) (h : x.length ≤ k) :
    (x ++ y).take k = x ++ y.take (k - x.length) := by
  rw [List.take_append_eq_append_take, List.take_of_length_le h]

theorem drop_append_ge (x y : List Char) (k : Nat) (h : x.length ≤ k) :
    (x ++ y).drop k = y.drop (k - x.length) := by
  rw [List.drop_append_eq_append_drop, List.drop_eq_nil_of_le h, List.nil_append]

theorem occAt_of_indexOfSub_some {p s : List Char} {d : Nat} :
    indexOfSub p s = some d → occAt p s d := by
  induction s generalizing d with
  | nil =>
    intro h
    unfold indexOfSub at h
    by_cases hp : isPre p [] = true
    · rw [if_pos hp] at h
      injection h with h1
      subst h1
      unfold occAt
      rw [List.drop_nil]
      exact hp
    · rw [if_neg hp] at h
      exact absurd h (by simp)
  | cons c cs ih =>
    intro h
    unfold indexOfSub at h
    by_cases h0 : isPre p (c :: cs) = true
    · rw [if_pos h0] at h
      injection h with h1
      subst h1
      exact h0
    · rw [if_neg h0] at h
      cases hi : indexOfSub p cs with
      | none => rw [hi] at h; simp at h
      | some d' =>
        rw [hi] at h
        simp at h
        subst h
        have := ih hi
        simpa [occAt, List.drop_succ_cons] using this

theorem exists_occ_of_containsSub {p s : List Char} (h : containsSub p s = true) :
    ∃ i, occAt p s i := by
  unfold containsSub at h
  cases hi : indexOfSub p s with
  | none => rw [hi] at h; simp at h
  | some d => exact ⟨d, occAt_of_indexOfSub_some hi⟩

theorem containsSub_take_mono {p : List Char} (hp : p ≠ []) (t : List Char) (k : Nat)
    (h : containsSub p t = false) : containsSub p (t.take k) = false := by
  cases hc : containsSub p (t.take k) with
  | false => rfl
  | true =>
    obtain ⟨i, hi⟩ := exists_occ_of_containsSub hc
    exact absurd (((occAt_take_iff hp t k i).mp hi).1) (containsSub_false_no_occ h i)

theorem no_early_occ {p : List Char} (hp : p ≠ []) (A B : List Char)
    (hcond : containsSub p (A ++ p.take (p.length - 1)) = false) :
    ∀ j, j < A.length → ¬ occAt p (A ++ (p ++ B)) j := by
  intro j hj hocc
  have hpl : 0 < p.length := List.length_pos.mpr hp
  have h1 : occAt p ((A ++ (p ++ B)).take (A.length + (p.length - 1))) j :=
    (occAt_take_iff hp _ _ j).mpr ⟨hocc, by omega⟩
  have h2 : (A ++ (p ++ B)).take (A.length + (p.length - 1)) = A ++ p.take (p.length - 1) := by
    rw [take_append_ge A (p ++ B) _ (by omega), Nat.add_sub_cancel_left,
      take_append_le p B _ (by omega)]
  rw [h2] at h1
  exact containsSub_false_no_occ hcond j h1

theorem occAt_designated (p A B : List Char) : occAt p (A ++ (p ++ B)) A.length := by
  unfold occAt
  rw [drop_append_ge A (p ++ B) A.length (Nat.le_refl _), Nat.sub_self, List.drop_zero]
  exact isPre_refl_append p B

theorem indexOf_designated {p : List Char} (hp : p ≠ []) (A B : List Char)
    (hcond : containsSub p (A ++ p.take (p.length - 1)) = false) :
    indexOfSub p (A ++ (p ++ B)) = some A.length :=
  indexOfSub_eq_some_of (occAt_designated p A B) (no_early_occ hp A B hcond)

theorem startDelim_ne_nil : slideStartDelim ≠ [] := by decide
theorem endDelim_ne_nil : slideEndDelim ≠ [] := by decide
theorem completeDelim_ne_nil : completeDelim ≠ [] := by decide
theorem startDelim_length : slideStartDelim.length = 21 := rfl
theorem endDelim_length : slideEndDelim.length = 19 := rfl
theorem completeDelim_length : completeDelim.length = 31 := rfl

theorem extractLoopF_idle (title : List Char) (fuel : Nat) (buf : List Char)
    (slides : List Slide) (h : containsSub slideEndDelim buf = false) :
    extractLoopF title fuel buf slides = ⟨buf, slides, [], true⟩ := by
  cases fuel <;> simp [extractLoopF, h]

theorem recBlock_length (g b : List Char) : (recBlock g b).length = blockLen g b := by
  simp [recBlock, blockLen, List.length_append]
  omega

theorem recsRender_cons_length (g b : List Char) (rs : List (List Char × List Char))
    (tail : List Char) :
    (recsRender ((g, b) :: rs) tail).length = blockLen g b + (recsRender rs tail).length := by
  show (recBlock g b ++ recsRender rs tail).length = _
  rw [List.length_append, recBlock_length]

theorem blockLen_pos (g b : List Char) : 40 ≤ blockLen g b := by
  unfold blockLen
  rw [startDelim_length, endDelim_length]
  omega

theorem extract_window (title : List Char) (rs : List (List Char × List Char)) :
    ∀ (tail : List Char) (k fuel : Nat) (slides : List Slide),
      (∀ gb ∈ rs, goodRec gb.1 gb.2) →
      containsSub slideEndDelim tail = false →
      k ≤ (recsRender rs tail).length → k ≤ fuel →
      extractLoopF title fuel ((recsRender rs tail).take k) slides =
        ⟨(recsRender (rs.drop (cnt rs k)) tail).take (k - consumedLen rs k),
         (accSlides title ((rs.take (cnt rs k)).map (fun gb => gb.2)) slides).1,
         (accSlides title ((rs.take (cnt rs k)).map (fun gb => gb.2)) slides).2,
         true⟩ := by
  induction rs with
  | nil =>
    intro tail k fuel slides _ htail _ _
    simp only [recsRender, cnt, consumedLen, List.drop_nil, List.take_nil, List.map_nil,
      accSlides, Nat.sub_zero]
    exact extractLoopF_idle title fuel (tail.take k) slides
      (containsSub_take_mono endDelim_ne_nil tail k htail)
  | cons gb rest ih =>
    obtain ⟨g, b⟩ := gb
    intro tail k fuel slides hgood htail hk hfuel
    have hg : goodRec g b := hgood (g, b) (by simp)
    have hrest : ∀ x ∈ rest, goodRec x.1 x.2 := fun x hx => hgood x (by simp [hx])
    by_cases hkL : blockLen g b ≤ k
    · -- the first block is complete in the window
      set RR := (recsRender rest tail).take (k - blockLen g b) with hRR
      have hwin : (recsRender ((g, b) :: rest) tail).take k = recBlock g b ++ RR := by
        show (recBlock g b ++ recsRender rest tail).take k = _
        rw [take_append_ge _ _ k (by rw [recBlock_length]; exact hkL), recBlock_length]
      have hshape1 : recBlock g b ++ RR =
          g ++ (slideStartDelim ++ (b ++ (slideEndDelim ++ RR))) := by
        simp [recBlock, List.append_assoc]
      have hshape2 : recBlock g b ++ RR =
          (g ++ slideStartDelim ++ b) ++ (slideEndDelim ++ RR) := by
        simp [recBlock, List.append_assoc]
      have hidxS : indexOfSub slideStartDelim (recBlock g b ++ RR) = some g.length := by
        rw [hshape1]
        exact indexOf_designated startDelim_ne_nil g _ hg.1
      have hidxE : indexOfSub slideEndDelim (recBlock g b ++ RR) =
          some (g.length + slideStartDelim.length + b.length) := by
        rw [hshape2]
        rw [indexOf_designated endDelim_ne_nil (g ++ slideStartDelim ++ b) RR hg.2.1]
        congr 1
        simp only [List.length_append]
      have hcS : containsSub slideStartDelim (recBlock g b ++ RR) = true := by
        unfold containsSub
        rw [hidxS]
        rfl
      have hcE : containsSub slideEndDelim (recBlock g b ++ RR) = true := by
        unfold containsSub
        rw [hidxE]
        rfl
      have hcontent : jsSubstring (recBlock g b ++ RR) (g.length + slideStartDelim.length)
          (g.length + slideStartDelim.length + b.length) = b := by
        unfold jsSubstring
        rw [Nat.max_eq_right (by omega), Nat.min_eq_left (by omega), hshape2,
          take_append_le _ _ _ (by simp only [List.length_append]; omega),
          List.take_of_length_le (by simp only [List.length_append]; omega),
          drop_append_ge (g ++ slideStartDelim) b _
            (by simp only [List.length_append]; omega)]
        have : g.length + slideStartDelim.length - (g ++ slideStartDelim).length = 0 := by
          simp only [List.length_append]
          omega
        rw [this, List.drop_zero]
      have hbuf2 : (recBlock g b ++ RR).drop
          (g.length + slideStartDelim.length + b.length + slideEndDelim.length) = RR := by
        rw [drop_append_ge _ _ _ (by rw [recBlock_length]; unfold blockLen; omega),
          recBlock_length]
        have : blockLen g b = g.length + slideStartDelim.length + b.length +
            slideEndDelim.length := by unfold blockLen; omega
        rw [← this, Nat.sub_self, List.drop_zero]
      -- fuel must be positive
      cases fuel with
      | zero => exact absurd hfuel (by have := blockLen_pos g b; omega)
      | succ n =>
        rw [hwin]
        simp only [extractLoopF, hcS, hcE, Bool.and_self, if_true, hidxS, hidxE,
          Option.getD_some]
        rw [if_pos (by
          simp only [startDelim_length]
          omega : g.length < g.length + slideStartDelim.length + b.length)]
        rw [hcontent, hbuf2]
        have hk' : k - blockLen g b ≤ (recsRender rest tail).length := by
          rw [recsRender_cons_length] at hk
          omega
        have hf' : k - blockLen g b ≤ n := by
          have := blockLen_pos g b
          omega
        simp only [cnt, consumedLen, if_pos hkL, List.take_succ_cons, List.map_cons,
          List.drop_succ_cons]
        cases hd : decodeSlideText (jsTrim b) with
        | some sl =>
          have hrec := ih tail (k - blockLen g b) n (slides ++ [sl]) hrest htail hk' hf'
          rw [← hRR] at hrec
          simp only [hd, hrec, accSlides, Nat.sub_sub]
        | none =>
          have hrec := ih tail (k - blockLen g b) n slides hrest htail hk' hf'
          rw [← hRR] at hrec
          simp only [hd, hrec, accSlides, Nat.sub_sub]
    · -- the first block is incomplete: the loop idles
      have hpre : (recsRender ((g, b) :: rest) tail).take (blockLen g b - 1) =
          g ++ slideStartDelim ++ b ++
            slideEndDelim.take (slideEndDelim.length - 1) := by
        show (recBlock g b ++ recsRender rest tail).take _ = _
        rw [take_append_le _ _ _ (by rw [recBlock_length]; omega)]
        show ((g ++ slideStartDelim ++ b) ++ slideEndDelim).take _ = _
        rw [take_append_ge _ _ _ (by
          simp only [List.length_append, blockLen, startDelim_length, endDelim_length]
          omega)]
        congr 2
        simp only [List.length_append, blockLen, startDelim_length, endDelim_length]
        omega
      have h1 : containsSub slideEndDelim
          ((recsRender ((g, b) :: rest) tail).take (blockLen g b - 1)) = false := by
        rw [hpre]
        exact hg.2.1
      have hk1 : k ≤ blockLen g b - 1 := by omega
      have htt : (recsRender ((g, b) :: rest) tail).take k =
          ((recsRender ((g, b) :: rest) tail).take (blockLen g b - 1)).take k := by
        rw [List.take_take, Nat.min_eq_left hk1]
      have hnoE : containsSub slideEndDelim ((recsRender ((g, b) :: rest) tail).take k)
          = false := by
        rw [htt]
        exact containsSub_take_mono endDelim_ne_nil _ k h1
      simp only [cnt, consumedLen, if_neg hkL, List.drop_zero, List.take_zero,
        List.map_nil, accSlides, Nat.sub_zero]
      exact extractLoopF_idle title fuel _ slides hnoE

/-! ### Title-regex lemmas -/

theorem titlePre_decomp : "\x7b\x22main_title\x22: \x22".data = titleLit ++ [' ', '\x22'] := by
  decide

theorem titleObj_decomp (t : List Char) :
    titleObjText t = titleLit ++ (' ' :: '\x22' :: (t ++ ['\x22', '\x7d'])) := by
  unfold titleObjText
  rw [titlePre_decomp]
  simp [List.append_assoc]

theorem titleObjText_length (t : List Char) :
    (titleObjText t).length = 18 + t.length := by
  rw [titleObj_decomp]
  simp [List.length_append]
  have : titleLit.length = 14 := rfl
  omega

theorem takeNotQuote_all (l : List Char) (h : ∀ c ∈ l, c ≠ '\x22') :
    takeNotQuote l = l := by
  induction l with
  | nil => rfl
  | cons c cs ih =>
    unfold takeNotQuote
    rw [if_neg (h c (by simp)), ih (fun x hx => h x (by simp [hx]))]

theorem dropNotQuote_all (l : List Char) (h : ∀ c ∈ l, c ≠ '\x22') :
    dropNotQuote l = [] := by
  induction l with
  | nil => rfl
  | cons c cs ih =>
    unfold dropNotQuote
    rw [if_neg (h c (by simp))]
    exact ih (fun x hx => h x (by simp [hx]))

theorem takeNotQuote_append (t r : List Char) (h : ∀ c ∈ t, c ≠ '\x22') :
    takeNotQuote (t ++ '\x22' :: r) = t := by
  induction t with
  | nil => simp [takeNotQuote]
  | cons c cs ih =>
    rw [List.cons_append]
    show (if c = '\x22' then [] else c :: takeNotQuote (cs ++ '\x22' :: r)) = c :: cs
    rw [if_neg (h c (by simp)), ih (fun x hx => h x (by simp [hx]))]

theorem dropNotQuote_append (t r : List Char) (h : ∀ c ∈ t, c ≠ '\x22') :
    dropNotQuote (t ++ '\x22' :: r) = '\x22' :: r := by
  induction t with
  | nil => simp [dropNotQuote]
  | cons c cs ih =>
    rw [List.cons_append]
    show (if c = '\x22' then c :: (cs ++ '\x22' :: r) else dropNotQuote (cs ++ '\x22' :: r)) =
      '\x22' :: r
    rw [if_neg (h c (by simp))]
    exact ih (fun x hx => h x (by simp [hx]))

theorem titleMatchHere_render (t rest : List Char) (hne : t ≠ [])
    (hq : ∀ c ∈ t, c ≠ '\x22') :
    titleMatchHere (titleObjText t ++ rest) = some (t, rest) := by
  rw [titleObj_decomp]
  rw [List.append_assoc]
  unfold titleMatchHere
  rw [if_pos (isPre_refl_append _ _)]
  rw [drop_append_ge titleLit _ titleLit.length (Nat.le_refl _), Nat.sub_self, List.drop_zero]
  have hws1 : isJsWS ' ' = true := rfl
  have hws2 : isJsWS '\x22' = false := rfl
  simp only [List.cons_append, List.dropWhile_cons, hws1, hws2, if_true, if_false,
    Bool.false_eq_true]
  have harr : t ++ ['\x22', '\x7d'] ++ rest = t ++ '\x22' :: '\x7d' :: rest := by
    simp
  rw [harr, takeNotQuote_append t _ hq, dropNotQuote_append t _ hq]
  cases t with
  | nil => exact absurd rfl hne
  | cons a as => rfl

theorem titleMatchHere_short_none (s : List Char) (h : s.length < titleLit.length) :
    titleMatchHere s = none := by
  unfold titleMatchHere
  rw [if_neg]
  intro hp
  exact absurd (isPre_length_le hp) (by omega)

theorem titleMatchHere_take_none (t : List Char) (hq : ∀ c ∈ t, c ≠ '\x22') :
    ∀ n, n < (titleObjText t).length →
      titleMatchHere ((titleObjText t).take n) = none := by
  intro n hn
  rw [titleObjText_length] at hn
  by_cases hn14 : n < 14
  · apply titleMatchHere_short_none
    rw [List.length_take]
    have : titleLit.length = 14 := rfl
    omega
  · push_neg at hn14
    rw [titleObj_decomp, take_append_ge titleLit _ n (by
      have : titleLit.length = 14 := rfl
      omega)]
    unfold titleMatchHere
    rw [if_pos (isPre_refl_append _ _)]
    rw [drop_append_ge titleLit _ titleLit.length (Nat.le_refl _), Nat.sub_self,
      List.drop_zero]
    have hlit14 : titleLit.length = 14 := rfl
    rw [hlit14]
    set m := n - 14 with hm
    have hmlt : m < t.length + 4 := by omega
    match hm2 : m with
    | 0 => rfl
    | 1 => rfl
    | m2 + 2 =>
      have hws1 : isJsWS ' ' = true := rfl
      have hws2 : isJsWS '\x22' = false := rfl
      simp only [List.take_succ_cons, List.dropWhile_cons, hws1, hws2, if_true, if_false,
        Bool.false_eq_true]
      by_cases hc : m2 ≤ t.length
      · rw [take_append_le t _ m2 hc]
        rw [takeNotQuote_all (t.take m2) (fun c hcm => hq c (List.mem_of_mem_take hcm)),
          dropNotQuote_all (t.take m2) (fun c hcm => hq c (List.mem_of_mem_take hcm))]
        cases htk : t.take m2 with
        | nil => rfl
        | cons a as => rfl
      · have hm2t : m2 = t.length + 1 := by omega
        subst hm2t
        rw [take_append_ge t _ _ (by omega)]
        have : t.length + 1 - t.length = 1 := by omega
        rw [this]
        have h1 : (['\x22', '\x7d'] : List Char).take 1 = ['\x22'] := rfl
        rw [h1, takeNotQuote_append t [] hq, dropNotQuote_append t [] hq]
        cases t with
        | nil => rfl
        | cons a as => rfl

theorem findTitle_none (s : List Char) (h : ∀ i, titleMatchHere (s.drop i) = none) :
    findTitle s = none := by
  induction s with
  | nil => rfl
  | cons c cs ih =>
    unfold findTitle
    have h0 := h 0
    rw [List.drop_zero] at h0
    rw [h0, ih (fun i => by have hh := h (i + 1); rwa [List.drop_succ_cons] at hh)]
    rfl

theorem findTitle_cons_match {c : Char} {s : List Char} {r : List Char × List Char}
    (h : titleMatchHere (c :: s) = some r) : findTitle (c :: s) = some r := by
  unfold findTitle
  rw [h]

theorem titleMatchHere_none_of_head (s : List Char)
    (h : ∀ c, s.head? = some c → c ≠ '\x7b') : titleMatchHere s = none := by
  cases s with
  | nil => rfl
  | cons c cs =>
    have hc : c ≠ '\x7b' := h c rfl
    have hnp : ¬ isPre titleLit (c :: cs) = true := by
      intro hp
      have hlit : titleLit = '\x7b' :: "\x22main_title\x22:".data := by decide
      rw [hlit] at hp
      simp only [isPre, Bool.and_eq_true, beq_iff_eq] at hp
      exact hc hp.1.symm
    unfold titleMatchHere
    rw [if_neg hnp]

theorem titleObj_no_brace_tail (t : List Char) (hb : ∀ c ∈ t, c ≠ '\x7b') :
    ∀ c ∈ (titleObjText t).drop 1, c ≠ '\x7b' := by
  intro c hc
  rw [titleObj_decomp] at hc
  have hlit : titleLit = '\x7b' :: "\x22main_title\x22:".data := by decide
  rw [hlit, List.cons_append, List.drop_succ_cons, List.drop_zero] at hc
  rcases List.mem_append.mp hc with h1 | h2
  · exact (by decide : ∀ x ∈ "\x22main_title\x22:".data, x ≠ '\x7b') c h1
  rcases List.mem_cons.mp h2 with h3 | h4
  · subst h3; decide
  rcases List.mem_cons.mp h4 with h5 | h6
  · subst h5; decide
  rcases List.mem_append.mp h6 with h7 | h8
  · exact hb c h7
  rcases List.mem_cons.mp h8 with h9 | h10
  · subst h9; decide
  rcases List.mem_cons.mp h10 with h11 | h12
  · subst h11; decide
  · simp at h12

theorem findTitle_take_none (t : List Char) (hq : ∀ c ∈ t, c ≠ '\x22')
    (hb : ∀ c ∈ t, c ≠ '\x7b') (n : Nat) (hn : n < (titleObjText t).length) :
    findTitle ((titleObjText t).take n) = none := by
  apply findTitle_none
  intro i
  cases i with
  | zero =>
    rw [List.drop_zero]
    exact titleMatchHere_take_none t hq n hn
  | succ j =>
    apply titleMatchHere_none_of_head
    intro c hc
    have hmem : c ∈ ((titleObjText t).take n).drop (j + 1) :=
      List.mem_of_mem_head? (by rw [hc]; simp)
    have h2 : c ∈ (titleObjText t).drop (j + 1) := by
      rw [List.drop_take] at hmem
      exact List.mem_of_mem_take hmem
    have h3 : c ∈ (titleObjText t).drop 1 := by
      have hd : (titleObjText t).drop (j + 1) = ((titleObjText t).drop 1).drop j := by
        rw [List.drop_drop]
        congr 1
        omega
      rw [hd] at h2
      exact (List.drop_sublist j _).mem h2
    exact titleObj_no_brace_tail t hb c h3

/-! ### Canonical run bookkeeping -/

theorem recsRender_length (rs : List (List Char × List Char)) (tail : List Char) :
    (recsRender rs tail).length = sumBlock rs + tail.length := by
  induction rs with
  | nil => simp [recsRender, sumBlock]
  | cons gb rest ih =>
    obtain ⟨g, b⟩ := gb
    rw [recsRender_cons_length, ih]
    simp [sumBlock]
    omega

theorem consumedLen_le_self (rs : List (List Char × List Char)) (k : Nat) :
    consumedLen rs k ≤ k := by
  induction rs generalizing k with
  | nil => simp [consumedLen]
  | cons gb rest ih =>
    obtain ⟨g, b⟩ := gb
    unfold consumedLen
    split
    · have := ih (k - blockLen g b)
      omega
    · omega

theorem cnt_consumed_add (rs : List (List Char × List Char)) :
    ∀ (k n : Nat), k ≤ n →
      cnt rs n = cnt rs k + cnt (rs.drop (cnt rs k)) (n - consumedLen rs k) ∧
      consumedLen rs n = consumedLen rs k +
        consumedLen (rs.drop (cnt rs k)) (n - consumedLen rs k) := by
  induction rs with
  | nil => intro k n _; simp [cnt, consumedLen]
  | cons gb rest ih =>
    obtain ⟨g, b⟩ := gb
    intro k n hkn
    by_cases hL : blockLen g b ≤ k
    · have hLn : blockLen g b ≤ n := by omega
      obtain ⟨h1, h2⟩ := ih (k - blockLen g b) (n - blockLen g b) (by omega)
      have hcl := consumedLen_le_self rest (k - blockLen g b)
      have harg : n - (blockLen g b + consumedLen rest (k - blockLen g b)) =
          n - blockLen g b - consumedLen rest (k - blockLen g b) := by omega
      constructor
      · simp only [cnt, consumedLen, if_pos hL, if_pos hLn, List.drop_succ_cons]
        rw [h1, harg]
        omega
      · simp only [cnt, consumedLen, if_pos hL, if_pos hLn, List.drop_succ_cons]
        rw [h2, harg]
        omega
    · simp only [cnt, consumedLen, if_neg hL, List.drop_zero, Nat.sub_zero]
      constructor <;> omega

theorem cnt_full (rs : List (List Char × List Char)) :
    ∀ (k : Nat), sumBlock rs ≤ k →
      cnt rs k = rs.length ∧ consumedLen rs k = sumBlock rs := by
  induction rs with
  | nil => intro k _; simp [cnt, consumedLen, sumBlock]
  | cons gb rest ih =>
    obtain ⟨g, b⟩ := gb
    intro k hk
    simp only [sumBlock] at hk
    have hL : blockLen g b ≤ k := by omega
    obtain ⟨h1, h2⟩ := ih (k - blockLen g b) (by omega)
    constructor
    · simp only [cnt, if_pos hL, h1, List.length_cons]
    · simp only [consumedLen, if_pos hL, h2, sumBlock]

theorem recsRender_drop_consumed (rs : List (List Char × List Char)) :
    ∀ (tail : List Char) (k : Nat),
      (recsRender rs tail).drop (consumedLen rs k) =
        recsRender (rs.drop (cnt rs k)) tail := by
  induction rs with
  | nil => intro tail k; simp [recsRender, consumedLen, cnt]
  | cons gb rest ih =>
    obtain ⟨g, b⟩ := gb
    intro tail k
    by_cases hL : blockLen g b ≤ k
    · simp only [consumedLen, cnt, if_pos hL, List.drop_succ_cons]
      show (recBlock g b ++ recsRender rest tail).drop _ = _
      rw [drop_append_ge _ _ _ (by rw [recBlock_length]; omega), recBlock_length]
      rw [show blockLen g b + consumedLen rest (k - blockLen g b) - blockLen g b =
        consumedLen rest (k - blockLen g b) from by omega]
      exact ih tail (k - blockLen g b)
    · simp only [consumedLen, cnt, if_neg hL, List.drop_zero]

theorem accSlides_append (title : List Char) (l1 : List (List Char)) :
    ∀ (l2 : List (List Char)) (acc : List Slide),
      accSlides title (l1 ++ l2) acc =
        ((accSlides title l2 (accSlides title l1 acc).1).1,
         (accSlides title l1 acc).2 ++ (accSlides title l2 (accSlides title l1 acc).1).2) := by
  induction l1 with
  | nil => intro l2 acc; simp [accSlides]
  | cons b rest ih =>
    intro l2 acc
    simp only [List.cons_append, accSlides]
    cases hd : decodeSlideText (jsTrim b) with
    | some sl => simp only [List.append_eq, ih, List.cons_append]
    | none => simp only [List.append_eq, ih, List.cons_append]

theorem complete_in_window (rs : List (List Char × List Char)) :
    ∀ (gl : List Char) (k : Nat),
      (∀ gb ∈ rs, goodRec gb.1 gb.2) → goodTail gl →
      k ≤ (recsRender rs (gl ++ completeDelim)).length →
      containsSub completeDelim
        ((recsRender (rs.drop (cnt rs k)) (gl ++ completeDelim)).take
          (k - consumedLen rs k)) =
        decide (k = (recsRender rs (gl ++ completeDelim)).length) := by
  induction rs with
  | nil =>
    intro gl k _ htail hk
    simp only [cnt, consumedLen, List.drop_nil, recsRender, Nat.sub_zero]
    simp only [recsRender] at hk
    by_cases hfull : k = (gl ++ completeDelim).length
    · have hocc : containsSub completeDelim (gl ++ completeDelim) = true := by
        apply containsSub_of_occAt (i := gl.length)
        have hsh : gl ++ completeDelim = gl ++ (completeDelim ++ []) := by simp
        rw [hsh]
        exact occAt_designated completeDelim gl []
      subst hfull
      rw [List.take_length, hocc]
      exact (decide_eq_true rfl).symm
    · have hlt : k < (gl ++ completeDelim).length := by omega
      rw [decide_eq_false hfull]
      have hpre : (gl ++ completeDelim).take ((gl ++ completeDelim).length - 1) =
          gl ++ completeDelim.take (completeDelim.length - 1) := by
        rw [List.length_append, take_append_ge _ _ _ (by
          have := completeDelim_length
          omega)]
        congr 2
        omega
      have h1 : containsSub completeDelim
          ((gl ++ completeDelim).take ((gl ++ completeDelim).length - 1)) = false := by
        rw [hpre]
        exact htail.2
      have htt : (gl ++ completeDelim).take k =
          ((gl ++ completeDelim).take ((gl ++ completeDelim).length - 1)).take k := by
        rw [List.take_take, Nat.min_eq_left (by omega)]
      rw [htt]
      exact containsSub_take_mono completeDelim_ne_nil _ k h1
  | cons gb rest ih =>
    obtain ⟨g, b⟩ := gb
    intro gl k hgood htail hk
    have hg : goodRec g b := hgood (g, b) (by simp)
    have hrest : ∀ x ∈ rest, goodRec x.1 x.2 := fun x hx => hgood x (by simp [hx])
    by_cases hL : blockLen g b ≤ k
    · simp only [cnt, consumedLen, if_pos hL, List.drop_succ_cons]
      rw [recsRender_cons_length] at hk
      have := ih gl (k - blockLen g b) hrest htail (by omega)
      rw [show k - (blockLen g b + consumedLen rest (k - blockLen g b)) =
        k - blockLen g b - consumedLen rest (k - blockLen g b) from by omega]
      rw [this]
      rw [decide_eq_decide]
      rw [recsRender_cons_length]
      omega
    · simp only [cnt, consumedLen, if_neg hL, List.drop_zero, Nat.sub_zero]
      have hltfull : k < (recsRender ((g, b) :: rest) (gl ++ completeDelim)).length := by
        rw [recsRender_cons_length, recsRender_length, List.length_append,
          completeDelim_length]
        omega
      rw [decide_eq_false (by omega)]
      have hpre : (recsRender ((g, b) :: rest) (gl ++ completeDelim)).take
          (blockLen g b - 1) =
          g ++ slideStartDelim ++ b ++
            slideEndDelim.take (slideEndDelim.length - 1) := by
        show (recBlock g b ++ recsRender rest (gl ++ completeDelim)).take _ = _
        rw [take_append_le _ _ _ (by rw [recBlock_length]; omega)]
        show ((g ++ slideStartDelim ++ b) ++ slideEndDelim).take _ = _
        rw [take_append_ge _ _ _ (by
          simp only [List.length_append, blockLen, startDelim_length, endDelim_length]
          omega)]
        congr 2
        simp only [List.length_append, blockLen, startDelim_length, endDelim_length]
        omega
      have h1 : containsSub completeDelim
          ((recsRender ((g, b) :: rest) (gl ++ completeDelim)).take (blockLen g b - 1))
          = false := by
        rw [hpre]
        exact hg.2.2
      have htt : (recsRender ((g, b) :: rest) (gl ++ completeDelim)).take k =
          ((recsRender ((g, b) :: rest) (gl ++ completeDelim)).take
            (blockLen g b - 1)).take k := by
        rw [List.take_take, Nat.min_eq_left (by omega)]
      rw [htt]
      exact containsSub_take_mono completeDelim_ne_nil _ k h1

theorem findTitle_render (t rest : List Char) (hne : t ≠ [])
    (hq : ∀ c ∈ t, c ≠ '\x22') :
    findTitle (titleObjText t ++ rest) = some (t, rest) := by
  have hcons : titleObjText t ++ rest =
      '\x7b' :: ("\x22main_title\x22: \x22".data ++ (t ++ ("\x22\x7d".data ++ rest))) := by
    unfold titleObjText
    have h1 : "\x7b\x22main_title\x22: \x22".data =
        '\x7b' :: "\x22main_title\x22: \x22".data := by decide
    conv_lhs => rw [h1]
    simp [List.append_assoc]
  rw [hcons]
  apply findTitle_cons_match
  rw [← hcons]
  exact titleMatchHere_render t rest hne hq

theorem titleKey_in_render (t rest : List Char) :
    containsSub titleKey (titleObjText t ++ rest) = true := by
  apply containsSub_of_occAt (i := 1)
  unfold occAt
  rw [titleObj_decomp]
  have hlit : titleLit = '\x7b' :: (titleKey ++ [':']) := by decide
  rw [hlit]
  simp only [List.cons_append, List.drop_succ_cons, List.drop_zero, List.append_assoc]
  exact isPre_refl_append _ _

theorem renderW_decomp (w : WFInput) :
    renderW w = titleObjText w.title ++ recsRender w.recs (w.tailGap ++ completeDelim) := rfl

theorem renderW_length (w : WFInput) :
    (renderW w).length = (titleObjText w.title).length +
      (recsRender w.recs (w.tailGap ++ completeDelim)).length := by
  rw [renderW_decomp, List.length_append]

/-- Processing one nonempty in-order chunk from a canonical state, while the
title object is still incomplete: the chunk is only buffered. -/
theorem processChunk_canon_pre (w : WFInput) (hWF : WF w) (n m : Nat) (hm : 1 ≤ m)
    (hnm : n + m ≤ (renderW w).length) (hA : n + m < (titleObjText w.title).length) :
    processChunk (canonState w n) (((renderW w).drop n).take m) =
      ⟨canonState w (n + m), [], decide (n + m = (renderW w).length)⟩ := by
  obtain ⟨⟨hne, hchars, hTE, hTC⟩, hrecs, htail⟩ := hWF
  have hqu : ∀ c ∈ w.title, c ≠ '\x22' := fun c hc => (hchars c hc).1
  have hbr : ∀ c ∈ w.title, c ≠ '\x7b' := fun c hc => (hchars c hc).2
  have hn1 : n < (titleObjText w.title).length := by omega
  have hseg_len : (((renderW w).drop n).take m).length = m := by
    simp only [List.length_take, List.length_drop]
    omega
  have hseg_ne : (((renderW w).drop n).take m).isEmpty = false := by
    cases hEq : ((renderW w).drop n).take m with
    | nil => rw [hEq] at hseg_len; simp at hseg_len; omega
    | cons a l => rfl
  have hbuf : (renderW w).take n ++ ((renderW w).drop n).take m
      = (renderW w).take (n + m) := (List.take_add _ n m).symm
  have hbufT : (renderW w).take (n + m) = (titleObjText w.title).take (n + m) := by
    rw [renderW_decomp]
    exact take_append_le _ _ _ (by omega)
  have hfind : findTitle ((renderW w).take (n + m)) = none := by
    rw [hbufT]
    exact findTitle_take_none w.title hqu hbr (n + m) hA
  have hnoE : containsSub slideEndDelim ((renderW w).take (n + m)) = false := by
    rw [hbufT]
    exact containsSub_take_mono endDelim_ne_nil _ _ hTE
  have hnoC : containsSub completeDelim ((renderW w).take (n + m)) = false := by
    rw [hbufT]
    exact containsSub_take_mono completeDelim_ne_nil _ _ hTC
  have hstn : canonState w n = ⟨(renderW w).take n, [], [], false⟩ := by
    unfold canonState
    rw [if_pos hn1]
  have hstm : canonState w (n + m) = ⟨(renderW w).take (n + m), [], [], false⟩ := by
    unfold canonState
    rw [if_pos hA]
  have hdec : decide (n + m = (renderW w).length) = false := by
    apply decide_eq_false
    rw [renderW_length]
    omega
  rw [hstn, hstm, hdec]
  unfold processChunk
  rw [if_neg (by rw [hseg_ne]; exact Bool.false_ne_true)]
  simp only [hbuf]
  have htb : (if (List.isEmpty ([] : List Char) && containsSub titleKey
      ((renderW w).take (n + m))) = true then
        match findTitle ((renderW w).take (n + m)) with
        | some r => r
        | none => (([] : List Char), (renderW w).take (n + m))
      else (([] : List Char), (renderW w).take (n + m))) =
      (([] : List Char), (renderW w).take (n + m)) := by
    split
    · rw [hfind]
    · rfl
  rw [htb]
  have hid := extractLoopF_idle [] ((renderW w).take (n + m)).length
    ((renderW w).take (n + m)) [] hnoE
  simp only [chunkStep, hid, hnoC, List.isEmpty_nil, Bool.not_true, Bool.false_and, Bool.and_false,
    Bool.false_eq_true, if_false, List.nil_append, List.append_nil]

/-- Processing the chunk that completes the title object: the title is
captured and stripped, the one-shot title snapshot fires, and every record
block already complete is extracted. -/
theorem processChunk_canon_cross (w : WFInput) (hWF : WF w) (n m : Nat) (hm : 1 ≤ m)
    (hnm : n + m ≤ (renderW w).length) (hn1 : n < (titleObjText w.title).length)
    (hB : (titleObjText w.title).length ≤ n + m) :
    processChunk (canonState w n) (((renderW w).drop n).take m) =
      ⟨canonState w (n + m), canonSnaps w (n + m),
       decide (n + m = (renderW w).length)⟩ := by
  obtain ⟨⟨hne, hchars, hTE, hTC⟩, hrecs, htail⟩ := hWF
  have hqu : ∀ c ∈ w.title, c ≠ '\x22' := fun c hc => (hchars c hc).1
  set k' := n + m - (titleObjText w.title).length with hk'
  have hXlen : n + m ≤ (titleObjText w.title).length +
      (recsRender w.recs (w.tailGap ++ completeDelim)).length := by
    rw [← renderW_length]
    exact hnm
  have hk'le : k' ≤ (recsRender w.recs (w.tailGap ++ completeDelim)).length := by omega
  have hseg_len : (((renderW w).drop n).take m).length = m := by
    simp only [List.length_take, List.length_drop]
    omega
  have hseg_ne : (((renderW w).drop n).take m).isEmpty = false := by
    cases hEq : ((renderW w).drop n).take m with
    | nil => rw [hEq] at hseg_len; simp at hseg_len; omega
    | cons a l => rfl
  have hbuf : (renderW w).take n ++ ((renderW w).drop n).take m
      = (renderW w).take (n + m) := (List.take_add _ n m).symm
  have hbufT : (renderW w).take (n + m) =
      titleObjText w.title ++
        (recsRender w.recs (w.tailGap ++ completeDelim)).take k' := by
    rw [renderW_decomp, take_append_ge _ _ _ (by omega)]
  have hkey : containsSub titleKey ((renderW w).take (n + m)) = true := by
    rw [hbufT]
    exact titleKey_in_render _ _
  have hfind : findTitle ((renderW w).take (n + m)) =
      some (w.title, (recsRender w.recs (w.tailGap ++ completeDelim)).take k') := by
    rw [hbufT]
    exact findTitle_render _ _ hne hqu
  have htne : w.title.isEmpty = false := by
    cases hbt : w.title.isEmpty with
    | false => rfl
    | true => exact absurd (List.isEmpty_iff.mp hbt) hne
  have hblen : ((recsRender w.recs (w.tailGap ++ completeDelim)).take k').length = k' := by
    rw [List.length_take, Nat.min_eq_left hk'le]
  have hx := extract_window w.title w.recs (w.tailGap ++ completeDelim) k' k' []
    hrecs htail.1 hk'le (Nat.le_refl _)
  have hbroke := complete_in_window w.recs w.tailGap k' hrecs htail hk'le
  have hdec : decide (k' = (recsRender w.recs (w.tailGap ++ completeDelim)).length) =
      decide (n + m = (renderW w).length) := by
    rw [decide_eq_decide, renderW_length]
    omega
  have hstn : canonState w n = ⟨(renderW w).take n, [], [], false⟩ := by
    unfold canonState
    rw [if_pos hn1]
  have hstm : canonState w (n + m) = ⟨(recsRender (w.recs.drop (cnt w.recs k'))
      (w.tailGap ++ completeDelim)).take (k' - consumedLen w.recs k'), w.title,
      (accSlides w.title ((w.recs.take (cnt w.recs k')).map (fun gb => gb.2)) []).1,
      true⟩ := by
    unfold canonState
    rw [if_neg (by omega)]
  have hsnm : canonSnaps w (n + m) = ⟨w.title, [], false⟩ ::
      (accSlides w.title ((w.recs.take (cnt w.recs k')).map (fun gb => gb.2)) []).2 := by
    unfold canonSnaps
    rw [if_neg (by omega)]
  rw [hstn, hstm, hsnm]
  unfold processChunk
  rw [if_neg (by rw [hseg_ne]; exact Bool.false_ne_true)]
  simp only [chunkStep, hbuf, List.isEmpty_nil, hkey, Bool.and_self, if_true, hfind, htne,
    Bool.not_false, Bool.true_and, Bool.and_true, hblen, hx, hbroke, hdec,
    Bool.not_true, Bool.false_and, Bool.true_eq_false, Bool.false_eq_true, if_false,
    List.cons_append, List.nil_append]

/-- Processing one chunk after the title was captured, phrased relative to
the remaining record blocks `rs`: the chunk text is appended to the window
and every block that becomes complete is extracted. -/
theorem processChunk_post_aux (t : List Char) (htne : t.isEmpty = false)
    (rs : List (List Char × List Char)) (gl : List Char)
    (hrecs : ∀ gb ∈ rs, goodRec gb.1 gb.2) (htail : goodTail gl)
    (slides0 : List Slide) (κ m : Nat) (hm : 1 ≤ m)
    (hκm : κ + m ≤ (recsRender rs (gl ++ completeDelim)).length) :
    processChunk ⟨(recsRender rs (gl ++ completeDelim)).take κ, t, slides0, true⟩
        (((recsRender rs (gl ++ completeDelim)).drop κ).take m) =
      ⟨⟨(recsRender (rs.drop (cnt rs (κ + m))) (gl ++ completeDelim)).take
          (κ + m - consumedLen rs (κ + m)), t,
        (accSlides t ((rs.take (cnt rs (κ + m))).map (fun gb => gb.2)) slides0).1, true⟩,
       (accSlides t ((rs.take (cnt rs (κ + m))).map (fun gb => gb.2)) slides0).2,
       decide (κ + m = (recsRender rs (gl ++ completeDelim)).length)⟩ := by
  have hseg_len : (((recsRender rs (gl ++ completeDelim)).drop κ).take m).length = m := by
    simp only [List.length_take, List.length_drop]
    omega
  have hseg_ne : (((recsRender rs (gl ++ completeDelim)).drop κ).take m).isEmpty
      = false := by
    cases hEq : ((recsRender rs (gl ++ completeDelim)).drop κ).take m with
    | nil => rw [hEq] at hseg_len; simp at hseg_len; omega
    | cons a l => rfl
  have hbuf : (recsRender rs (gl ++ completeDelim)).take κ ++
      ((recsRender rs (gl ++ completeDelim)).drop κ).take m
      = (recsRender rs (gl ++ completeDelim)).take (κ + m) :=
    (List.take_add _ κ m).symm
  have hblen : ((recsRender rs (gl ++ completeDelim)).take (κ + m)).length = κ + m := by
    rw [List.length_take, Nat.min_eq_left hκm]
  have hx := extract_window t rs (gl ++ completeDelim) (κ + m) (κ + m) slides0
    hrecs htail.1 hκm (Nat.le_refl _)
  have hbroke := complete_in_window rs gl (κ + m) hrecs htail hκm
  unfold processChunk
  rw [if_neg (by rw [hseg_ne]; exact Bool.false_ne_true)]
  simp only [chunkStep, hbuf, htne, Bool.false_and, Bool.false_eq_true, if_false,
    Bool.not_true, Bool.and_false, hblen, hx, hbroke, List.nil_append]

theorem segment_post (w : WFInput) (n : Nat) (hC : (titleObjText w.title).length ≤ n) :
    (renderW w).drop n =
      (recsRender (w.recs.drop (cnt w.recs (n - (titleObjText w.title).length)))
        (w.tailGap ++ completeDelim)).drop
          ((n - (titleObjText w.title).length) -
            consumedLen w.recs (n - (titleObjText w.title).length)) := by
  rw [renderW_decomp, drop_append_ge _ _ n hC,
    ← recsRender_drop_consumed w.recs (w.tailGap ++ completeDelim)
      (n - (titleObjText w.title).length), List.drop_drop]
  congr 1
  have := consumedLen_le_self w.recs (n - (titleObjText w.title).length)
  omega

theorem canonState_post_shift (w : WFInput) (n m : Nat)
    (hC : (titleObjText w.title).length ≤ n) :
    ∀ k c cl, k = n - (titleObjText w.title).length → c = cnt w.recs k →
      cl = consumedLen w.recs k →
      canonState w (n + m) =
        ⟨(recsRender ((w.recs.drop c).drop (cnt (w.recs.drop c) (k - cl + m)))
            (w.tailGap ++ completeDelim)).take
              (k - cl + m - consumedLen (w.recs.drop c) (k - cl + m)),
         w.title,
         (accSlides w.title
            (((w.recs.drop c).take (cnt (w.recs.drop c) (k - cl + m))).map
              (fun gb => gb.2))
            (accSlides w.title ((w.recs.take c).map (fun gb => gb.2)) []).1).1,
         true⟩ := by
  intro k c cl hk hc hcl
  have hclk : cl ≤ k := by rw [hcl, hk]; exact consumedLen_le_self _ _
  have hadd := cnt_consumed_add w.recs k (k + m) (by omega)
  rw [← hc, ← hcl] at hadd
  have harg : k + m - cl = k - cl + m := by omega
  rw [harg] at hadd
  obtain ⟨hcadd, hcladd⟩ := hadd
  unfold canonState
  rw [if_neg (by omega)]
  have hidx : n + m - (titleObjText w.title).length = k + m := by omega
  rw [hidx, hcadd, hcladd]
  have hdrop : w.recs.drop (c + cnt (w.recs.drop c) (k - cl + m)) =
      (w.recs.drop c).drop (cnt (w.recs.drop c) (k - cl + m)) := by
    rw [List.drop_drop]
    try congr 1
    try omega
  have htke : w.recs.take (c + cnt (w.recs.drop c) (k - cl + m)) =
      w.recs.take c ++ (w.recs.drop c).take (cnt (w.recs.drop c) (k - cl + m)) :=
    List.take_add w.recs c _
  rw [hdrop, htke, List.map_append, accSlides_append]
  have hcl2 := consumedLen_le_self (w.recs.drop c) (k - cl + m)
  have hargs : k + m - (cl + consumedLen (w.recs.drop c) (k - cl + m)) =
      k - cl + m - consumedLen (w.recs.drop c) (k - cl + m) := by omega
  rw [hargs]

theorem canonSnaps_post_shift (w : WFInput) (n m : Nat)
    (hC : (titleObjText w.title).length ≤ n) :
    ∀ k c cl, k = n - (titleObjText w.title).length → c = cnt w.recs k →
      cl = consumedLen w.recs k →
      canonSnaps w n ++ (accSlides w.title
          (((w.recs.drop c).take (cnt (w.recs.drop c) (k - cl + m))).map
            (fun gb => gb.2))
          (accSlides w.title ((w.recs.take c).map (fun gb => gb.2)) []).1).2 =
        canonSnaps w (n + m) := by
  intro k c cl hk hc hcl
  have hclk : cl ≤ k := by rw [hcl, hk]; exact consumedLen_le_self _ _
  have hadd := cnt_consumed_add w.recs k (k + m) (by omega)
  rw [← hc, ← hcl] at hadd
  have harg : k + m - cl = k - cl + m := by omega
  rw [harg] at hadd
  obtain ⟨hcadd, _⟩ := hadd
  unfold canonSnaps
  rw [if_neg (by omega), if_neg (by omega)]
  have hidx : n + m - (titleObjText w.title).length = k + m := by omega
  have hidx0 : n - (titleObjText w.title).length = k := by omega
  rw [hidx, hidx0, ← hc, hcadd]
  have htke : w.recs.take (c + cnt (w.recs.drop c) (k - cl + m)) =
      w.recs.take c ++ (w.recs.drop c).take (cnt (w.recs.drop c) (k - cl + m)) :=
    List.take_add w.recs c _
  rw [htke, List.map_append, accSlides_append]
  simp [List.cons_append]

/-- Processing one nonempty in-order chunk from a canonical state after the
title was captured. -/
theorem processChunk_canon_post (w : WFInput) (hWF : WF w) (n m : Nat) (hm : 1 ≤ m)
    (hnm : n + m ≤ (renderW w).length) (hC : (titleObjText w.title).length ≤ n) :
    ∃ Δ, processChunk (canonState w n) (((renderW w).drop n).take m) =
        ⟨canonState w (n + m), Δ, decide (n + m = (renderW w).length)⟩ ∧
      canonSnaps w n ++ Δ = canonSnaps w (n + m) := by
  obtain ⟨⟨hne, hchars, hTE, hTC⟩, hrecs, htail⟩ := hWF
  have htne : w.title.isEmpty = false := by
    cases hbt : w.title.isEmpty with
    | false => rfl
    | true => exact absurd (List.isEmpty_iff.mp hbt) hne
  have hclk : consumedLen w.recs (n - (titleObjText w.title).length) ≤
      n - (titleObjText w.title).length := consumedLen_le_self _ _
  have hkX : n - (titleObjText w.title).length + m ≤
      (recsRender w.recs (w.tailGap ++ completeDelim)).length := by
    rw [renderW_length] at hnm
    omega
  have hYX : (recsRender w.recs (w.tailGap ++ completeDelim)).drop
      (consumedLen w.recs (n - (titleObjText w.title).length)) =
      recsRender (w.recs.drop (cnt w.recs (n - (titleObjText w.title).length)))
        (w.tailGap ++ completeDelim) :=
    recsRender_drop_consumed w.recs _ _
  have hYlen : (recsRender (w.recs.drop (cnt w.recs (n - (titleObjText w.title).length)))
      (w.tailGap ++ completeDelim)).length =
      (recsRender w.recs (w.tailGap ++ completeDelim)).length -
        consumedLen w.recs (n - (titleObjText w.title).length) := by
    rw [← hYX, List.length_drop]
  have hκm : (n - (titleObjText w.title).length -
      consumedLen w.recs (n - (titleObjText w.title).length)) + m ≤
      (recsRender (w.recs.drop (cnt w.recs (n - (titleObjText w.title).length)))
        (w.tailGap ++ completeDelim)).length := by
    rw [hYlen]
    omega
  have hstn : canonState w n =
      ⟨(recsRender (w.recs.drop (cnt w.recs (n - (titleObjText w.title).length)))
          (w.tailGap ++ completeDelim)).take
            (n - (titleObjText w.title).length -
              consumedLen w.recs (n - (titleObjText w.title).length)),
       w.title,
       (accSlides w.title
          ((w.recs.take (cnt w.recs (n - (titleObjText w.title).length))).map
            (fun gb => gb.2)) []).1,
       true⟩ := by
    unfold canonState
    rw [if_neg (by omega)]
  have hgoodd : ∀ gb ∈ w.recs.drop (cnt w.recs (n - (titleObjText w.title).length)),
      goodRec gb.1 gb.2 := fun gb hgb => hrecs gb ((List.drop_sublist _ _).subset hgb)
  have haux := processChunk_post_aux w.title htne
    (w.recs.drop (cnt w.recs (n - (titleObjText w.title).length))) w.tailGap
    hgoodd htail
    (accSlides w.title
      ((w.recs.take (cnt w.recs (n - (titleObjText w.title).length))).map
        (fun gb => gb.2)) []).1
    (n - (titleObjText w.title).length -
      consumedLen w.recs (n - (titleObjText w.title).length)) m hm hκm
  have hseg : ((renderW w).drop n).take m =
      ((recsRender (w.recs.drop (cnt w.recs (n - (titleObjText w.title).length)))
        (w.tailGap ++ completeDelim)).drop
          (n - (titleObjText w.title).length -
            consumedLen w.recs (n - (titleObjText w.title).length))).take m := by
    rw [segment_post w n hC]
  have hdecr : decide ((n - (titleObjText w.title).length -
      consumedLen w.recs (n - (titleObjText w.title).length)) + m =
      (recsRender (w.recs.drop (cnt w.recs (n - (titleObjText w.title).length)))
        (w.tailGap ++ completeDelim)).length) =
      decide (n + m = (renderW w).length) := by
    rw [decide_eq_decide, hYlen, renderW_length]
    omega
  refine ⟨(accSlides w.title
      (((w.recs.drop (cnt w.recs (n - (titleObjText w.title).length))).take
        (cnt (w.recs.drop (cnt w.recs (n - (titleObjText w.title).length)))
          (n - (titleObjText w.title).length -
            consumedLen w.recs (n - (titleObjText w.title).length) + m))).map
        (fun gb => gb.2))
      (accSlides w.title
        ((w.recs.take (cnt w.recs (n - (titleObjText w.title).length))).map
          (fun gb => gb.2)) []).1).2, ?_, ?_⟩
  · rw [hstn, hseg, haux, hdecr,
      canonState_post_shift w n m hC _ _ _ rfl rfl rfl]
  · exact canonSnaps_post_shift w n m hC _ _ _ rfl rfl rfl

/-- The chunk-consumption loop carries a canonical state at position `n` to
the canonical state at the end of the raw text, for every chunk split of the
remaining text. -/
theorem runChunks_canon (w : WFInput) (hWF : WF w) :
    ∀ (cs : List (List Char)), ∀ (n : Nat), n < (renderW w).length →
      cs.flatten = (renderW w).drop n →
      (runChunks cs (canonState w n)).1 = canonState w (renderW w).length ∧
      canonSnaps w n ++ (runChunks cs (canonState w n)).2 =
        canonSnaps w (renderW w).length := by
  intro cs
  induction cs with
  | nil =>
    intro n hn hflat
    exfalso
    have hlen := congrArg List.length hflat
    simp only [List.flatten_nil, List.length_nil, List.length_drop] at hlen
    omega
  | cons c cs ih =>
    intro n hn hflat
    rw [List.flatten_cons] at hflat
    by_cases hcnil : c = []
    · subst hcnil
      have hpc : processChunk (canonState w n) [] = ⟨canonState w n, [], false⟩ := by
        simp [processChunk]
      obtain ⟨ih1, ih2⟩ := ih n hn (by simpa using hflat)
      constructor
      · simp only [runChunks, hpc, Bool.false_eq_true, if_false]
        exact ih1
      · simp only [runChunks, hpc, Bool.false_eq_true, if_false, List.nil_append]
        exact ih2
    · have hm : 1 ≤ c.length := by
        cases c with
        | nil => exact absurd rfl hcnil
        | cons a l => simp
      have hcseg : c = ((renderW w).drop n).take c.length := by
        rw [← hflat]
        exact (List.take_left c cs.flatten).symm
      have hflat2 : cs.flatten = (renderW w).drop (n + c.length) := by
        have h1 : (renderW w).drop (n + c.length) = ((renderW w).drop n).drop c.length := by
          rw [List.drop_drop]
          try congr 1
          try omega
        rw [h1, ← hflat, List.drop_left]
      have hnm : n + c.length ≤ (renderW w).length := by
        have hlen := congrArg List.length hflat
        simp only [List.length_append, List.length_drop] at hlen
        omega
      have hstep : ∃ Δ, processChunk (canonState w n)
          (((renderW w).drop n).take c.length) =
          ⟨canonState w (n + c.length), Δ, decide (n + c.length = (renderW w).length)⟩ ∧
          canonSnaps w n ++ Δ = canonSnaps w (n + c.length) := by
        by_cases h1 : n + c.length < (titleObjText w.title).length
        · refine ⟨[], processChunk_canon_pre w hWF n c.length hm hnm h1, ?_⟩
          unfold canonSnaps
          rw [if_pos (by omega : n < (titleObjText w.title).length), if_pos h1]
          rfl
        · by_cases h2 : n < (titleObjText w.title).length
          · refine ⟨canonSnaps w (n + c.length),
              processChunk_canon_cross w hWF n c.length hm hnm h2 (by omega), ?_⟩
            have hsn : canonSnaps w n = [] := by
              unfold canonSnaps
              rw [if_pos h2]
            rw [hsn, List.nil_append]
          · exact processChunk_canon_post w hWF n c.length hm hnm (by omega)
      obtain ⟨Δ, hpc, hsn⟩ := hstep
      rw [← hcseg] at hpc
      by_cases hend : n + c.length = (renderW w).length
      · rw [decide_eq_true hend] at hpc
        constructor
        · simp only [runChunks, hpc, if_true]
          rw [hend]
        · simp only [runChunks, hpc, if_true]
          rw [hsn, hend]
      · rw [decide_eq_false hend] at hpc
        obtain ⟨ih1, ih2⟩ := ih (n + c.length) (by omega) hflat2
        constructor
        · simp only [runChunks, hpc, Bool.false_eq_true, if_false]
          exact ih1
        · simp only [runChunks, hpc, Bool.false_eq_true, if_false]
          rw [← List.append_assoc, hsn]
          exact ih2

theorem canonState_zero (w : WFInput) : canonState w 0 = initState := by
  unfold canonState initState
  rw [if_pos (by rw [titleObjText_length]; omega)]
  rw [List.take_zero]

theorem accSlides_fst (title : List Char) (l : List (List Char)) :
    ∀ acc, (accSlides title l acc).1 =
      acc ++ l.filterMap (fun b => decodeSlideText (jsTrim b)) := by
  induction l with
  | nil => intro acc; simp [accSlides]
  | cons b rest ih =>
    intro acc
    unfold accSlides
    cases hd : decodeSlideText (jsTrim b) with
    | some sl => simp [List.filterMap_cons, hd, ih]
    | none => simp [List.filterMap_cons, hd, ih]

theorem canonState_final_mainTitle (w : WFInput) :
    (canonState w (renderW w).length).mainTitle = w.title := by
  unfold canonState
  rw [if_neg (by rw [renderW_length]; omega)]

theorem canonState_final_slides (w : WFInput) :
    (canonState w (renderW w).length).slides =
      w.recs.filterMap (fun gb => decodeSlideText (jsTrim gb.2)) := by
  unfold canonState
  rw [if_neg (by rw [renderW_length]; omega)]
  have hk : (renderW w).length - (titleObjText w.title).length =
      (recsRender w.recs (w.tailGap ++ completeDelim)).length := by
    rw [renderW_length]
    omega
  show (accSlides w.title
      ((w.recs.take (cnt w.recs ((renderW w).length - (titleObjText w.title).length))).map
        (fun gb => gb.2)) []).1 = _
  rw [hk]
  obtain ⟨hc, _⟩ := cnt_full w.recs
    ((recsRender w.recs (w.tailGap ++ completeDelim)).length)
    (by rw [recsRender_length]; omega)
  rw [hc, List.take_length, accSlides_fst, List.nil_append, List.filterMap_map]
  rfl

/-- The entire observable output of the generator, for any chunk split of a
well-formed raw text, expressed canonically. -/
theorem generateSlidesStream_canon (w : WFInput) (hWF : WF w)
    (cs : List (List Char)) (hcs : cs.flatten = renderW w) :
    generateSlidesStream cs =
      (canonSnaps w (renderW w).length ++
        [⟨(canonState w (renderW w).length).mainTitle,
          (canonState w (renderW w).length).slides, true⟩],
       if (canonState w (renderW w).length).mainTitle.isEmpty ||
          (canonState w (renderW w).length).slides.isEmpty
       then some streamErrMsg else none) := by
  have hL : 0 < (renderW w).length := by
    rw [renderW_length, titleObjText_length]
    omega
  obtain ⟨h1, h2⟩ := runChunks_canon w hWF cs 0 hL (by simpa using hcs)
  rw [canonState_zero w] at h1 h2
  have hsn0 : canonSnaps w 0 = [] := by
    unfold canonSnaps
    rw [if_pos (by rw [titleObjText_length]; omega)]
  rw [hsn0, List.nil_append] at h2
  unfold generateSlidesStream
  simp only [h1, h2]

/-! ### General driver lemmas (arbitrary, not necessarily well-formed, input) -/

theorem extractLoopF_fuel (title : List Char) :
    ∀ (fuel : Nat) (buf : List Char) (slides : List Slide), buf.length ≤ fuel →
      (extractLoopF title fuel buf slides).fuelOk = true := by
  intro fuel
  induction fuel with
  | zero =>
    intro buf slides h
    have hb : buf = [] := List.eq_nil_of_length_eq_zero (Nat.le_zero.mp h)
    subst hb
    have hcs : containsSub slideStartDelim [] = false := by decide
    simp [extractLoopF, hcs]
  | succ n ih =>
    intro buf slides h
    unfold extractLoopF
    split
    · simp only []
      split
      · have hlen : (buf.drop ((indexOfSub slideEndDelim buf).getD 0 +
            slideEndDelim.length)).length ≤ n := by
          rw [List.length_drop, endDelim_length]
          omega
        cases hd : decodeSlideText (jsTrim (jsSubstring buf
            ((indexOfSub slideStartDelim buf).getD 0 + slideStartDelim.length)
            ((indexOfSub slideEndDelim buf).getD 0))) with
        | some sl =>
          simp only [hd]
          simpa using ih _ _ hlen
        | none =>
          simp only [hd]
          exact ih _ _ hlen
      · rfl
    · rfl

theorem extractLoopF_snaps_shape (title : List Char) :
    ∀ (fuel : Nat) (buf : List Char) (slides : List Slide),
      (∀ p ∈ (extractLoopF title fuel buf slides).snaps,
        p.isComplete = false ∧ p.slides.isEmpty = false) ∧
      List.Chain' (fun a b => a ≤ b)
        (slides.length :: ((extractLoopF title fuel buf slides).snaps.map
          (fun p => p.slides.length) ++
            [(extractLoopF title fuel buf slides).slides.length])) := by
  intro fuel
  induction fuel with
  | zero =>
    intro buf slides
    constructor
    · intro p hp
      unfold extractLoopF at hp
      split at hp <;> simp at hp
    · unfold extractLoopF
      split <;> simp [List.chain'_cons]
  | succ n ih =>
    intro buf slides
    unfold extractLoopF
    split
    · simp only []
      split
      · cases hd : decodeSlideText (jsTrim (jsSubstring buf
            ((indexOfSub slideStartDelim buf).getD 0 + slideStartDelim.length)
            ((indexOfSub slideEndDelim buf).getD 0))) with
        | some sl =>
          simp only [hd]
          obtain ⟨ihm, ihc⟩ := ih (buf.drop ((indexOfSub slideEndDelim buf).getD 0 +
            slideEndDelim.length)) (slides ++ [sl])
          constructor
          · intro p hp
            simp only [List.mem_cons] at hp
            rcases hp with hp | hp
            · subst hp
              refine ⟨rfl, ?_⟩
              simp
            · exact ihm p hp
          · simp only [List.map_cons, List.cons_append]
            rw [List.chain'_cons]
            refine ⟨by simp, ihc⟩
        | none =>
          simp only [hd]
          exact ih _ slides
      · constructor
        · intro p hp; simp at hp
        · simp [List.chain'_cons]
    · constructor
      · intro p hp; simp at hp
      · simp [List.chain'_cons]

theorem chain_head_weaken {a b : Nat} {xs : List Nat} (hab : a ≤ b)
    (h : List.Chain' (fun x y => x ≤ y) (b :: xs)) :
    List.Chain' (fun x y => x ≤ y) (a :: xs) := by
  cases xs with
  | nil => simp
  | cons x xs2 =>
    rw [List.chain'_cons] at h ⊢
    exact ⟨le_trans hab h.1, h.2⟩

theorem chain_glue (a : Nat) (l1 : List Nat) :
    ∀ (b c : Nat) (l2 : List Nat),
      List.Chain' (fun x y => x ≤ y) (a :: l1 ++ [b]) →
      List.Chain' (fun x y => x ≤ y) (b :: l2 ++ [c]) →
      List.Chain' (fun x y => x ≤ y) (a :: (l1 ++ l2) ++ [c]) := by
  induction l1 generalizing a with
  | nil =>
    intro b c l2 h1 h2
    simp only [List.cons_append, List.nil_append] at h1 h2 ⊢
    rw [List.chain'_cons] at h1
    exact chain_head_weaken h1.1 h2
  | cons x l1' ih =>
    intro b c l2 h1 h2
    simp only [List.cons_append] at h1 ⊢
    rw [List.chain'_cons] at h1
    rw [List.chain'_cons]
    refine ⟨h1.1, ?_⟩
    have := ih x b c l2 (by simpa using h1.2) h2
    simpa using this

theorem chunkStep_shape (st : DriverState) (t1 b1 : List Char) :
    (∀ p ∈ (chunkStep st t1 b1).snaps, p.isComplete = false) ∧
    List.Chain' (fun a b => a ≤ b)
      (st.slides.length :: ((chunkStep st t1 b1).snaps.map (fun p => p.slides.length) ++
        [(chunkStep st t1 b1).state.slides.length])) ∧
    ((chunkStep st t1 b1).snaps.countP
        (fun p => !p.isComplete && p.slides.isEmpty)) +
      (if st.titleYielded then 1 else 0) =
        (if (chunkStep st t1 b1).state.titleYielded then 1 else 0) := by
  obtain ⟨hexm, hexc⟩ := extractLoopF_snaps_shape t1 b1.length b1 st.slides
  have hz : (extractLoopF t1 b1.length b1 st.slides).snaps.countP
      (fun p => !p.isComplete && p.slides.isEmpty) = 0 := by
    rw [List.countP_eq_zero]
    intro p hp
    simp [(hexm p hp).1, (hexm p hp).2]
  unfold chunkStep
  split
  · rename_i hguard
    have hempty : st.slides.isEmpty = true := by
      simp only [Bool.and_eq_true] at hguard
      exact hguard.2
    have hyield : st.titleYielded = false := by
      simp only [Bool.and_eq_true, Bool.not_eq_true'] at hguard
      exact hguard.1.2
    have hlen0 : st.slides.length = 0 := by
      rw [List.isEmpty_iff] at hempty
      rw [hempty]
      rfl
    refine ⟨?_, ?_, ?_⟩
    · intro p hp
      simp only [List.cons_append, List.mem_cons, List.nil_append] at hp
      rcases hp with hp | hp
      · subst hp
        rfl
      · exact (hexm p hp).1
    · simp only [List.cons_append, List.map_cons, List.nil_append]
      rw [List.chain'_cons]
      refine ⟨by simp [hlen0], ?_⟩
      have h0 : (List.nil : List Slide).length = st.slides.length := by
        rw [hlen0]
        rfl
      rw [h0]
      exact hexc
    · rw [hyield]
      simp only [List.cons_append, List.nil_append, List.countP_cons, hz]
      simp
  · refine ⟨?_, ?_, ?_⟩
    · intro p hp
      simp only [List.nil_append] at hp
      exact (hexm p hp).1
    · simpa using hexc
    · simp only [List.nil_append, hz]
      simp

theorem processChunk_shape (st : DriverState) (c : List Char) :
    (∀ p ∈ (processChunk st c).snaps, p.isComplete = false) ∧
    List.Chain' (fun a b => a ≤ b)
      (st.slides.length :: ((processChunk st c).snaps.map (fun p => p.slides.length) ++
        [(processChunk st c).state.slides.length])) ∧
    ((processChunk st c).snaps.countP
        (fun p => !p.isComplete && p.slides.isEmpty)) +
      (if st.titleYielded then 1 else 0) =
        (if (processChunk st c).state.titleYielded then 1 else 0) := by
  unfold processChunk
  split
  · refine ⟨by simp, by simp [List.chain'_cons], by simp⟩
  · exact chunkStep_shape st _ _

theorem runChunks_shape (cs : List (List Char)) :
    ∀ st : DriverState,
      (∀ p ∈ (runChunks cs st).2, p.isComplete = false) ∧
      List.Chain' (fun a b => a ≤ b)
        (st.slides.length :: ((runChunks cs st).2.map (fun p => p.slides.length) ++
          [(runChunks cs st).1.slides.length])) ∧
      ((runChunks cs st).2.countP (fun p => !p.isComplete && p.slides.isEmpty)) +
        (if st.titleYielded then 1 else 0) =
          (if (runChunks cs st).1.titleYielded then 1 else 0) := by
  induction cs with
  | nil =>
    intro st
    refine ⟨by simp [runChunks], ?_, by simp [runChunks]⟩
    simp [runChunks, List.chain'_cons]
  | cons c cs2 ih =>
    intro st
    obtain ⟨hm, hc, hk⟩ := processChunk_shape st c
    unfold runChunks
    simp only []
    split
    · exact ⟨hm, hc, hk⟩
    · obtain ⟨ihm, ihc, ihk⟩ := ih (processChunk st c).state
      refine ⟨?_, ?_, ?_⟩
      · intro p hp
        rcases List.mem_append.mp hp with hp | hp
        · exact hm p hp
        · exact ihm p hp
      · rw [List.map_append]
        exact chain_glue _ _ _ _ _ hc ihc
      · simp only [List.countP_append]
        omega

theorem accSlides_snaps_shape (title : List Char) (l : List (List Char)) :
    ∀ acc p, p ∈ (accSlides title l acc).2 → p.isComplete = false ∧ p.slides.isEmpty = false := by
  induction l with
  | nil =>
    intro acc p hp
    simp [accSlides] at hp
  | cons b rest ih =>
    intro acc p hp
    unfold accSlides at hp
    cases hd : decodeSlideText (jsTrim b) with
    | some sl =>
      rw [hd] at hp
      simp only [] at hp
      rcases List.mem_cons.mp hp with hp | hp
      · subst hp
        exact ⟨rfl, by simp⟩
      · exact ih _ p hp
    | none =>
      rw [hd] at hp
      exact ih _ p hp

theorem flatten_singletons (l : List Char) : (l.map (fun c => [c])).flatten = l := by
  induction l with
  | nil => rfl
  | cons c r ih => simp [ih]

theorem lookupKV_append (l1 l2 : List (List Char × JSVal)) (k : List Char) :
    lookupKV (l1 ++ l2) k =
      match lookupKV l1 k with
      | some v => some v
      | none => lookupKV l2 k := by
  induction l1 with
  | nil => rfl
  | cons kv r ih =>
    obtain ⟨k0, v⟩ := kv
    rw [List.cons_append]
    show (if k0 = k then some v else lookupKV (r ++ l2) k) =
      match (if k0 = k then some v else lookupKV r k) with
      | some v => some v
      | none => lookupKV l2 k
    by_cases hk : k0 = k
    · rw [if_pos hk, if_pos hk]
    · rw [if_neg hk, if_neg hk]
      exact ih

theorem getD_set_self {α : Type} (l : List α) (i : Nat) (x d : α) :
    ∀ h : i < l.length, (l.set i x).getD i d = x := by
  induction l generalizing i with
  | nil => intro h; simp at h
  | cons y r ih =>
    intro h
    cases i with
    | zero => rfl
    | succ j =>
      show (r.set j x).getD j d = x
      exact ih j (by simpa using h)

theorem getD_set_ne {α : Type} (l : List α) (i j : Nat) (x d : α) (h : j ≠ i) :
    (l.set i x).getD j d = l.getD j d := by
  induction l generalizing i j with
  | nil => simp [List.set]
  | cons y r ih =>
    cases i with
    | zero =>
      cases j with
      | zero => exact absurd rfl h
      | succ j2 => rfl
    | succ i2 =>
      cases j with
      | zero => rfl
      | succ j2 =>
        show (r.set i2 x).getD j2 d = r.getD j2 d
        exact ih i2 j2 (by omega)

theorem getD_append_lt {α : Type} (l m : List α) (j : Nat) (d : α) :
    ∀ h : j < l.length, (l ++ m).getD j d = l.getD j d := by
  induction l generalizing j with
  | nil => intro h; simp at h
  | cons y r ih =>
    intro h
    cases j with
    | zero => rfl
    | succ j2 =>
      show (r ++ m).getD j2 d = r.getD j2 d
      exact ih j2 (by simpa using h)

theorem getD_append_len {α : Type} (l : List α) (y d : α) :
    (l ++ [y]).getD l.length d = y := by
  induction l with
  | nil => rfl
  | cons z r ih => exact ih

theorem length_set_eq {α : Type} (l : List α) (i : Nat) (x : α) :
    (l.set i x).length = l.length := by
  simp

/-! ### Simulation of the store model by the pure model -/

theorem extractLoopR_sim (title : List Char) :
    ∀ (fuel : Nat) (buf : List Char) (store : List (List Slide)) (a : Nat),
      a < store.length →
      (extractLoopR title fuel buf store a).buffer =
        (extractLoopF title fuel buf (store.getD a [])).buffer ∧
      (extractLoopR title fuel buf store a).fuelOk =
        (extractLoopF title fuel buf (store.getD a [])).fuelOk ∧
      store.length ≤ (extractLoopR title fuel buf store a).store.length ∧
      (extractLoopR title fuel buf store a).store.getD a [] =
        (extractLoopF title fuel buf (store.getD a [])).slides ∧
      (∀ j, j ≠ a → j < store.length →
        (extractLoopR title fuel buf store a).store.getD j [] = store.getD j []) ∧
      (extractLoopR title fuel buf store a).snaps.map
          (derefSnap (extractLoopR title fuel buf store a).store) =
        (extractLoopF title fuel buf (store.getD a [])).snaps ∧
      (∀ s ∈ (extractLoopR title fuel buf store a).snaps,
        s.2.1 ≠ a ∧ store.length ≤ s.2.1 ∧
          s.2.1 < (extractLoopR title fuel buf store a).store.length) := by
  intro fuel
  induction fuel with
  | zero =>
    intro buf store a ha
    unfold extractLoopR extractLoopF
    by_cases hC : (containsSub slideStartDelim buf && containsSub slideEndDelim buf) = true
    · rw [if_pos hC, if_pos hC]
      exact ⟨rfl, rfl, le_rfl, rfl, fun j _ _ => rfl, rfl,
        fun s hs => absurd hs (List.not_mem_nil s)⟩
    · rw [if_neg hC, if_neg hC]
      exact ⟨rfl, rfl, le_rfl, rfl, fun j _ _ => rfl, rfl,
        fun s hs => absurd hs (List.not_mem_nil s)⟩
  | succ n ih =>
    intro buf store a ha
    unfold extractLoopR extractLoopF
    simp only []
    by_cases hC : (containsSub slideStartDelim buf && containsSub slideEndDelim buf) = true
    · rw [if_pos hC, if_pos hC]
      by_cases hse : (indexOfSub slideStartDelim buf).getD 0 <
          (indexOfSub slideEndDelim buf).getD 0
      · rw [if_pos hse, if_pos hse]
        cases hd : decodeSlideText (jsTrim (jsSubstring buf
            ((indexOfSub slideStartDelim buf).getD 0 + slideStartDelim.length)
            ((indexOfSub slideEndDelim buf).getD 0))) with
        | none =>
          simp only [hd]
          exact ih _ store a ha
        | some sl =>
          simp only [hd]
          set store2 := store.set a (store.getD a [] ++ [sl]) with hst2
          set store3 := store2 ++ [store2.getD a []] with hst3
          have h2l : store2.length = store.length := by
            rw [hst2]
            simp
          have h3l : store3.length = store.length + 1 := by
            rw [hst3]
            simp [h2l]
          have h2g : store2.getD a [] = store.getD a [] ++ [sl] := by
            rw [hst2]
            exact getD_set_self store a _ [] ha
          have hg3 : store3.getD a [] = store.getD a [] ++ [sl] := by
            rw [hst3, getD_append_lt _ _ a _ (by omega), h2g]
          have ha3 : a < store3.length := by omega
          obtain ⟨ih1, ih2, ih3, ih4, ih5, ih6, ih7⟩ :=
            ih (buf.drop ((indexOfSub slideEndDelim buf).getD 0 + slideEndDelim.length))
              store3 a ha3
          rw [hg3] at ih1 ih2 ih4 ih6
          have hfresh :
              (extractLoopR title n
                (buf.drop ((indexOfSub slideEndDelim buf).getD 0 + slideEndDelim.length))
                store3 a).store.getD store2.length [] = store.getD a [] ++ [sl] := by
            rw [ih5 store2.length (by omega) (by omega), hst3, h2l, ← h2l,
              getD_append_len, h2g]
          refine ⟨ih1, ih2, by omega, ih4, ?_, ?_, ?_⟩
          · intro j hja hj
            rw [ih5 j hja (by omega), hst3,
              getD_append_lt _ _ j _ (by omega), hst2, getD_set_ne store a j _ _ hja]
          · rw [List.map_cons, ih6]
            congr 1
            show (⟨title, _, false⟩ : Snapshot) = _
            rw [hfresh]
          · intro s hs
            rcases List.mem_cons.mp hs with hs | hs
            · subst hs
              refine ⟨by simp only []; omega, by simp only []; omega, ?_⟩
              simp only []
              omega
            · obtain ⟨hs1, hs2, hs3⟩ := ih7 s hs
              exact ⟨hs1, by omega, hs3⟩
      · rw [if_neg hse, if_neg hse]
        exact ⟨rfl, rfl, le_rfl, rfl, fun j _ _ => rfl, rfl,
          fun s hs => absurd hs (List.not_mem_nil s)⟩
    · rw [if_neg hC, if_neg hC]
      exact ⟨rfl, rfl, le_rfl, rfl, fun j _ _ => rfl, rfl,
        fun s hs => absurd hs (List.not_mem_nil s)⟩

theorem chunkStepR_sim (st : DriverStateR) (store : List (List Slide)) (t1 b1 : List Char)
    (ha : st.acc < store.length) :
    (chunkStepR st store t1 b1).state.buffer =
      (chunkStep ⟨st.buffer, st.mainTitle, store.getD st.acc [], st.titleYielded⟩
        t1 b1).state.buffer ∧
    (chunkStepR st store t1 b1).state.mainTitle =
      (chunkStep ⟨st.buffer, st.mainTitle, store.getD st.acc [], st.titleYielded⟩
        t1 b1).state.mainTitle ∧
    (chunkStepR st store t1 b1).state.acc = st.acc ∧
    (chunkStepR st store t1 b1).state.titleYielded =
      (chunkStep ⟨st.buffer, st.mainTitle, store.getD st.acc [], st.titleYielded⟩
        t1 b1).state.titleYielded ∧
    (chunkStepR st store t1 b1).broke =
      (chunkStep ⟨st.buffer, st.mainTitle, store.getD st.acc [], st.titleYielded⟩ t1 b1).broke ∧
    store.length ≤ (chunkStepR st store t1 b1).store.length ∧
    (chunkStepR st store t1 b1).store.getD st.acc [] =
      (chunkStep ⟨st.buffer, st.mainTitle, store.getD st.acc [], st.titleYielded⟩
        t1 b1).state.slides ∧
    (∀ j, j ≠ st.acc → j < store.length →
      (chunkStepR st store t1 b1).store.getD j [] = store.getD j []) ∧
    (chunkStepR st store t1 b1).snaps.map (derefSnap (chunkStepR st store t1 b1).store) =
      (chunkStep ⟨st.buffer, st.mainTitle, store.getD st.acc [], st.titleYielded⟩ t1 b1).snaps ∧
    (∀ s ∈ (chunkStepR st store t1 b1).snaps,
      s.2.1 ≠ st.acc ∧ s.2.1 < (chunkStepR st store t1 b1).store.length) := by
  unfold chunkStepR chunkStep
  simp only []
  by_cases hg : (!t1.isEmpty && !st.titleYielded && (store.getD st.acc []).isEmpty) = true
  · rw [if_pos hg, if_pos hg]
    simp only []
    have ha2 : st.acc < (store ++ [[]]).length := by
      simp only [List.length_append, List.length_cons, List.length_nil]
      omega
    have hsame : (store ++ ([[]] : List (List Slide))).getD st.acc [] = store.getD st.acc [] :=
      getD_append_lt _ _ _ _ ha
    obtain ⟨e1, e2, e3, e4, e5, e6, e7⟩ :=
      extractLoopR_sim t1 b1.length b1 (store ++ [[]]) st.acc ha2
    rw [hsame] at e1 e2 e4 e6
    have hlen2 : (store ++ ([[]] : List (List Slide))).length = store.length + 1 := by
      simp
    have hcell : (extractLoopR t1 b1.length b1 (store ++ [[]]) st.acc).store.getD
        store.length [] = [] := by
      rw [e5 store.length (by omega) (by omega)]
      exact getD_append_len store [] []
    refine ⟨e1, trivial, trivial, trivial, by rw [e1], by omega, e4, ?_, ?_, ?_⟩
    · intro j hj hjl
      rw [e5 j hj (by omega), getD_append_lt _ _ _ _ hjl]
    · rw [List.cons_append, List.nil_append, List.map_cons, e6]
      congr 1
      show (⟨t1, _, false⟩ : Snapshot) = _
      rw [hcell]
    · intro s hs
      rcases List.mem_cons.mp hs with hs | hs
      · subst hs
        refine ⟨by simp only []; omega, ?_⟩
        simp only []
        omega
      · obtain ⟨hs1, hs2, hs3⟩ := e7 s hs
        exact ⟨hs1, hs3⟩
  · rw [if_neg hg, if_neg hg]
    simp only []
    obtain ⟨e1, e2, e3, e4, e5, e6, e7⟩ := extractLoopR_sim t1 b1.length b1 store st.acc ha
    refine ⟨e1, trivial, trivial, trivial, by rw [e1], e3, e4, e5, by simpa using e6, ?_⟩
    intro s hs
    simp only [List.nil_append] at hs
    obtain ⟨hs1, _, hs3⟩ := e7 s hs
    exact ⟨hs1, hs3⟩

theorem processChunkR_sim (st : DriverStateR) (store : List (List Slide)) (text : List Char)
    (ha : st.acc < store.length) :
    (processChunkR st store text).state.buffer =
      (processChunk ⟨st.buffer, st.mainTitle, store.getD st.acc [], st.titleYielded⟩
        text).state.buffer ∧
    (processChunkR st store text).state.mainTitle =
      (processChunk ⟨st.buffer, st.mainTitle, store.getD st.acc [], st.titleYielded⟩
        text).state.mainTitle ∧
    (processChunkR st store text).state.acc = st.acc ∧
    (processChunkR st store text).state.titleYielded =
      (processChunk ⟨st.buffer, st.mainTitle, store.getD st.acc [], st.titleYielded⟩
        text).state.titleYielded ∧
    (processChunkR st store text).broke =
      (processChunk ⟨st.buffer, st.mainTitle, store.getD st.acc [], st.titleYielded⟩ text).broke ∧
    store.length ≤ (processChunkR st store text).store.length ∧
    (processChunkR st store text).store.getD st.acc [] =
      (processChunk ⟨st.buffer, st.mainTitle, store.getD st.acc [], st.titleYielded⟩
        text).state.slides ∧
    (∀ j, j ≠ st.acc → j < store.length →
      (processChunkR st store text).store.getD j [] = store.getD j []) ∧
    (processChunkR st store text).snaps.map (derefSnap (processChunkR st store text).store) =
      (processChunk ⟨st.buffer, st.mainTitle, store.getD st.acc [], st.titleYielded⟩ text).snaps ∧
    (∀ s ∈ (processChunkR st store text).snaps,
      s.2.1 ≠ st.acc ∧ s.2.1 < (processChunkR st store text).store.length) := by
  unfold processChunkR processChunk
  simp only []
  by_cases he : text.isEmpty = true
  · rw [if_pos he, if_pos he]
    exact ⟨rfl, rfl, rfl, rfl, rfl, le_rfl, rfl, fun j _ _ => rfl, rfl,
      fun s hs => absurd hs (List.not_mem_nil s)⟩
  · rw [if_neg he, if_neg he]
    by_cases hcap : (st.mainTitle.isEmpty && containsSub titleKey (st.buffer ++ text)) = true
    · rw [if_pos hcap]
      cases hft : findTitle (st.buffer ++ text) with
      | some r0 =>
        simp only [hft]
        exact chunkStepR_sim st store r0.1 r0.2 ha
      | none =>
        simp only [hft]
        exact chunkStepR_sim st store st.mainTitle (st.buffer ++ text) ha
    · rw [if_neg hcap]
      exact chunkStepR_sim st store st.mainTitle (st.buffer ++ text) ha

theorem runChunksR_sim (cs : List (List Char)) :
    ∀ (st : DriverStateR) (store : List (List Slide)), st.acc < store.length →
      (runChunksR cs st store).1.buffer =
        (runChunks cs ⟨st.buffer, st.mainTitle, store.getD st.acc [], st.titleYielded⟩).1.buffer ∧
      (runChunksR cs st store).1.mainTitle =
        (runChunks cs
          ⟨st.buffer, st.mainTitle, store.getD st.acc [], st.titleYielded⟩).1.mainTitle ∧
      (runChunksR cs st store).1.acc = st.acc ∧
      (runChunksR cs st store).1.titleYielded =
        (runChunks cs
          ⟨st.buffer, st.mainTitle, store.getD st.acc [], st.titleYielded⟩).1.titleYielded ∧
      store.length ≤ (runChunksR cs st store).2.1.length ∧
      (runChunksR cs st store).2.1.getD st.acc [] =
        (runChunks cs ⟨st.buffer, st.mainTitle, store.getD st.acc [], st.titleYielded⟩).1.slides ∧
      (∀ j, j ≠ st.acc → j < store.length →
        (runChunksR cs st store).2.1.getD j [] = store.getD j []) ∧
      (runChunksR cs st store).2.2.map (derefSnap (runChunksR cs st store).2.1) =
        (runChunks cs ⟨st.buffer, st.mainTitle, store.getD st.acc [], st.titleYielded⟩).2 ∧
      (∀ s ∈ (runChunksR cs st store).2.2,
        s.2.1 ≠ st.acc ∧ s.2.1 < (runChunksR cs st store).2.1.length) := by
  induction cs with
  | nil =>
    intro st store ha
    exact ⟨rfl, rfl, rfl, rfl, le_rfl, rfl, fun j _ _ => rfl, rfl,
      fun s hs => absurd hs (List.not_mem_nil s)⟩
  | cons c cs2 ih =>
    intro st store ha
    obtain ⟨pb, pm, pa, pt, pk, pl, pg, pf, ps, pq⟩ := processChunkR_sim st store c ha
    unfold runChunksR runChunks
    simp only []
    by_cases hbr : (processChunkR st store c).broke = true
    · have hbr2 : (processChunk ⟨st.buffer, st.mainTitle, store.getD st.acc [],
          st.titleYielded⟩ c).broke = true := pk.symm.trans hbr
      rw [if_pos hbr, if_pos hbr2]
      exact ⟨pb, pm, pa, pt, pl, pg, pf, ps, pq⟩
    · have hbr2 : ¬ (processChunk ⟨st.buffer, st.mainTitle, store.getD st.acc [],
          st.titleYielded⟩ c).broke = true := fun h => hbr (pk.trans h)
      rw [if_neg hbr, if_neg hbr2]
      simp only []
      have ha2 : (processChunkR st store c).state.acc < (processChunkR st store c).store.length := by
        rw [pa]
        omega
      have hmid : (⟨(processChunkR st store c).state.buffer,
          (processChunkR st store c).state.mainTitle,
          (processChunkR st store c).store.getD (processChunkR st store c).state.acc [],
          (processChunkR st store c).state.titleYielded⟩ : DriverState) =
          (processChunk ⟨st.buffer, st.mainTitle, store.getD st.acc [], st.titleYielded⟩
            c).state := by
        rw [pb, pm, pt, pa, pg]
      obtain ⟨i1, i2, i3, i4, i5, i6, i7, i8, i9⟩ :=
        ih (processChunkR st store c).state (processChunkR st store c).store ha2
      rw [hmid] at i1 i2 i4 i6 i8
      rw [pa] at i3 i6
      refine ⟨i1, i2, i3, i4, by omega, i6, ?_, ?_, ?_⟩
      · intro j hj hjl
        rw [i7 j (by rw [pa]; exact hj) (by omega), pf j hj hjl]
      · rw [List.map_append]
        have hstable : (runChunksR cs2 (processChunkR st store c).state
            (processChunkR st store c).store).2.2.map
              (derefSnap (runChunksR cs2 (processChunkR st store c).state
                (processChunkR st store c).store).2.1) =
            (runChunks cs2 (processChunk ⟨st.buffer, st.mainTitle, store.getD st.acc [],
              st.titleYielded⟩ c).state).2 := i8
        have hfirst : (processChunkR st store c).snaps.map
            (derefSnap (runChunksR cs2 (processChunkR st store c).state
              (processChunkR st store c).store).2.1) =
            (processChunkR st store c).snaps.map
              (derefSnap (processChunkR st store c).store) := by
          apply List.map_congr_left
          intro s hs
          obtain ⟨hs1, hs2⟩ := pq s hs
          unfold derefSnap
          rw [i7 s.2.1 (by rw [pa]; exact hs1) hs2]
        rw [hfirst, ps, hstable]
      · intro s hs
        rcases List.mem_append.mp hs with hs | hs
        · obtain ⟨hs1, hs2⟩ := pq s hs
          exact ⟨hs1, by omega⟩
        · obtain ⟨hs1, hs2⟩ := i9 s hs
          exact ⟨by rw [pa] at hs1; exact hs1, hs2⟩

/-! ### Shared concrete-input facts -/

theorem wDemo_WF : WF wDemo := by
  unfold WF goodTitle goodRec goodTail
  refine ⟨⟨?_, ?_, ?_, ?_⟩, ?_, ?_, ?_⟩ <;> decide

theorem wBad_WF : WF wBad := by
  unfold WF goodTitle goodRec goodTail
  refine ⟨⟨?_, ?_, ?_, ?_⟩, ?_, ?_, ?_⟩ <;> decide

/-! ### The claims -/

/-- C1: chunk-boundary invariance of the stream driver.  For any well-formed
raw model output (title object, then delimited slide records, then the
terminal marker), feeding the text to `generateSlidesStream` split at
arbitrary chunk boundaries — including inside a delimiter token, inside a
record, or one character at a time — produces exactly the same observable
outcome (the same ordered snapshot sequence, hence the same final decoded
slides in the same order, and the same error result) as feeding the entire
text as a single chunk. -/
theorem c1_chunk_boundary_invariance (w : WFInput) (hWF : WF w)
    (cs : List (List Char)) (hcs : cs.flatten = renderW w) :
    generateSlidesStream cs = generateSlidesStream [renderW w] := by
  rw [generateSlidesStream_canon w hWF cs hcs,
    generateSlidesStream_canon w hWF [renderW w] (by simp)]

/-- Witness for C1: the demo raw text fed one character per chunk gives the
same run as the whole text in one chunk. -/
theorem c1_chunk_boundary_invariance_witness :
    generateSlidesStream wDemoChunksOne = generateSlidesStream [renderW wDemo] :=
  c1_chunk_boundary_invariance wDemo wDemo_WF wDemoChunksOne
    (flatten_singletons (renderW wDemo))

/-- C2: malformed-record isolation.  For any well-formed raw output whose
record list is a decodable record, then a record whose body fails decoding,
then another decodable record, the run (under any chunking) ends with the
two good slides in their original order and raises no stream-ending error:
the bad record is dropped and the stream continues. -/
theorem c2_malformed_record_isolation (w : WFInput) (hWF : WF w)
    (gb1 gbBad gb2 : List Char × List Char) (s1 s2 : Slide)
    (hrecs : w.recs = [gb1, gbBad, gb2])
    (h1 : decodeSlideText (jsTrim gb1.2) = some s1)
    (hbad : decodeSlideText (jsTrim gbBad.2) = none)
    (h2 : decodeSlideText (jsTrim gb2.2) = some s2)
    (cs : List (List Char)) (hcs : cs.flatten = renderW w) :
    (generateSlidesStream cs).2 = none ∧
    ∃ pre, (generateSlidesStream cs).1 = pre ++ [⟨w.title, [s1, s2], true⟩] := by
  have hslides : (canonState w (renderW w).length).slides = [s1, s2] := by
    rw [canonState_final_slides, hrecs]
    simp [List.filterMap_cons, h1, hbad, h2]
  have htitle : (canonState w (renderW w).length).mainTitle = w.title :=
    canonState_final_mainTitle w
  have htne : w.title.isEmpty = false := by
    cases hI : w.title.isEmpty
    · rfl
    · exact absurd (List.isEmpty_iff.mp hI) hWF.1.1
  rw [generateSlidesStream_canon w hWF cs hcs]
  constructor
  · show (if (canonState w (renderW w).length).mainTitle.isEmpty ||
        (canonState w (renderW w).length).slides.isEmpty
      then some streamErrMsg else none) = none
    rw [htitle, hslides] at *
    simp [htne]
  · exact ⟨canonSnaps w (renderW w).length, by rw [htitle, hslides]⟩

/-- Witness for C2: the demo input with a broken record between two valid
ones yields exactly the two valid slides and no error. -/
theorem c2_malformed_record_isolation_witness :
    (generateSlidesStream [renderW wBad]).2 = none ∧
    ∃ pre, (generateSlidesStream [renderW wBad]).1 =
      pre ++ [⟨wBad.title, [sDemo1, sDemo2], true⟩] :=
  c2_malformed_record_isolation wBad wBad_WF
    ("\n".data, bodyT1) ("\n".data, bodyBad) ("\n".data, bodyT2) sDemo1 sDemo2
    rfl rfl rfl rfl [renderW wBad] (by simp)

/-- C3: monotonic completion.  On every run (any chunk list), the yielded
snapshot sequence is some prefix of incomplete snapshots followed by exactly
one final snapshot with `isComplete = true` (so `isComplete` is false for
every snapshot except the last and true for exactly the final one — after
which nothing further is yielded), and the `slides` length is non-decreasing
from each snapshot to the next. -/
theorem c3_monotonic_completion (chunks : List (List Char)) :
    ∃ pre fin, (generateSlidesStream chunks).1 = pre ++ [fin] ∧
      (∀ p ∈ pre, p.isComplete = false) ∧ fin.isComplete = true ∧
      List.Chain' (fun p q => p.slides.length ≤ q.slides.length)
        (generateSlidesStream chunks).1 := by
  obtain ⟨hm, hc, _⟩ := runChunks_shape chunks initState
  refine ⟨(runChunks chunks initState).2,
    ⟨(runChunks chunks initState).1.mainTitle, (runChunks chunks initState).1.slides, true⟩,
    rfl, hm, rfl, ?_⟩
  have h3 : List.Chain' (fun a b => a ≤ b)
      (((runChunks chunks initState).2 ++
        [(⟨(runChunks chunks initState).1.mainTitle,
          (runChunks chunks initState).1.slides, true⟩ : Snapshot)]).map
        (fun p => p.slides.length)) := by
    rw [List.map_append]
    simpa using hc.tail
  exact (List.chain'_map (fun p : Snapshot => p.slides.length)).mp h3

set_option maxRecDepth 80000 in
/-- C4 counterexample: the claim "whenever the title object marker appears
in the input, the title-only snapshot is emitted exactly once" is false.  In
this input the title marker does appear, but a slide record completes before
the title object arrives; the emission guard requires `slides.length === 0`,
so no snapshot of the form `(main_title, slides: [], isComplete: false)` is
ever yielded: the count is zero, not one. -/
theorem c4_counterexample :
    containsSub titleKey c4Chunks.flatten = true ∧
    List.countP (fun p => !p.isComplete && p.slides.isEmpty)
      (generateSlidesStream c4Chunks).1 = 0 :=
  ⟨by decide, by rfl⟩

/-- C4 (amended): the one-shot title latch guarantees the title-only
snapshot `(main_title, slides: [], isComplete: false)` is emitted at most
once on every input, and exactly once whenever the raw output is well formed
(title object before any record) — but not "exactly once whenever the title
marker appears", as the C4 counterexample shows. -/
theorem c4_one_shot_title_emission :
    (∀ chunks : List (List Char),
      List.countP (fun p => !p.isComplete && p.slides.isEmpty)
        (generateSlidesStream chunks).1 ≤ 1) ∧
    (∀ (w : WFInput) (cs : List (List Char)), WF w → cs.flatten = renderW w →
      List.countP (fun p => !p.isComplete && p.slides.isEmpty)
        (generateSlidesStream cs).1 = 1) := by
  constructor
  · intro chunks
    obtain ⟨_, _, hk⟩ := runChunks_shape chunks initState
    show List.countP (fun p => !p.isComplete && p.slides.isEmpty)
      ((runChunks chunks initState).2 ++
        [⟨(runChunks chunks initState).1.mainTitle,
          (runChunks chunks initState).1.slides, true⟩]) ≤ 1
    rw [List.countP_append]
    have h0 : (if initState.titleYielded = true then 1 else 0) = 0 := rfl
    rw [h0] at hk
    have hone : List.countP (fun p => !p.isComplete && p.slides.isEmpty)
        [(⟨(runChunks chunks initState).1.mainTitle,
          (runChunks chunks initState).1.slides, true⟩ : Snapshot)] = 0 := by
      simp [List.countP_cons]
    rw [hone]
    cases hty : (runChunks chunks initState).1.titleYielded with
    | false =>
      simp only [hty] at hk
      have he : (if (false = true) then 1 else 0) = 0 := rfl
      rw [he] at hk
      omega
    | true =>
      simp only [hty] at hk
      have he : (if True then 1 else 0) = 1 := rfl
      rw [he] at hk
      omega
  · intro w cs hWF hcs
    rw [generateSlidesStream_canon w hWF cs hcs]
    show List.countP (fun p => !p.isComplete && p.slides.isEmpty)
      (canonSnaps w (renderW w).length ++
        [⟨(canonState w (renderW w).length).mainTitle,
          (canonState w (renderW w).length).slides, true⟩]) = 1
    rw [List.countP_append]
    have hN : ¬ (renderW w).length < (titleObjText w.title).length := by
      rw [renderW_length]
      omega
    have hz : List.countP (fun p => !p.isComplete && p.slides.isEmpty)
        (accSlides w.title
          ((w.recs.take (cnt w.recs ((renderW w).length -
            (titleObjText w.title).length))).map (fun gb => gb.2)) []).2 = 0 := by
      rw [List.countP_eq_zero]
      intro p hp
      obtain ⟨hc, hs⟩ := accSlides_snaps_shape w.title _ [] p hp
      simp [hc, hs]
    have hf : List.countP (fun p => !p.isComplete && p.slides.isEmpty)
        [(⟨(canonState w (renderW w).length).mainTitle,
          (canonState w (renderW w).length).slides, true⟩ : Snapshot)] = 0 := rfl
    unfold canonSnaps
    rw [if_neg hN, List.countP_cons, hz, hf]
    rfl

/-- Witness for C4 (amended): on the demo text split inside a marker token,
the title-only snapshot is emitted exactly once. -/
theorem c4_one_shot_title_emission_witness :
    List.countP (fun p => !p.isComplete && p.slides.isEmpty)
      (generateSlidesStream wDemoChunksSplit).1 = 1 :=
  c4_one_shot_title_emission.2 wDemo wDemoChunksSplit wDemo_WF
    (by simp [wDemoChunksSplit])

/-- C5: fallback completion on premature upstream termination.  When the
chunk source ends without the terminal marker ever appearing, the run still
ends with a final snapshot with `isComplete = true` carrying exactly the
main title and slides accumulated up to that point. -/
theorem c5_fallback_completion (chunks : List (List Char))
    (hnone : containsSub completeDelim chunks.flatten = false) :
    (generateSlidesStream chunks).1.getLast? =
      some ⟨(runChunks chunks initState).1.mainTitle,
        (runChunks chunks initState).1.slides, true⟩ := by
  show ((runChunks chunks initState).2 ++
    [(⟨(runChunks chunks initState).1.mainTitle,
      (runChunks chunks initState).1.slides, true⟩ : Snapshot)]).getLast? = _
  rw [List.getLast?_concat]

set_option maxRecDepth 80000 in
/-- Witness for C5: a source that stops after the title and one record,
without the terminal marker, still ends in a complete snapshot. -/
theorem c5_fallback_completion_witness :
    containsSub completeDelim c5Chunks.flatten = false ∧
    (generateSlidesStream c5Chunks).1.getLast? =
      some ⟨(runChunks c5Chunks initState).1.mainTitle,
        (runChunks c5Chunks initState).1.slides, true⟩ :=
  ⟨by decide, c5_fallback_completion c5Chunks (by decide)⟩

/-- C6: post-completion validation ordering.  The terminal generation error
is raised exactly when, at finalization, no title was captured or zero
slides were accumulated; and the whole yielded sequence — ending in the
final `isComplete = true` snapshot — precedes the error value in the run's
observable output, so a consumer sees every snapshot (the partial result)
before the error propagates.  With a title and at least one slide, the error
is `none`. -/
theorem c6_post_completion_validation (chunks : List (List Char)) :
    ((generateSlidesStream chunks).2 = some streamErrMsg ↔
      ((runChunks chunks initState).1.mainTitle.isEmpty = true ∨
       (runChunks chunks initState).1.slides.isEmpty = true)) ∧
    (generateSlidesStream chunks).1 =
      (runChunks chunks initState).2 ++
        [⟨(runChunks chunks initState).1.mainTitle,
          (runChunks chunks initState).1.slides, true⟩] := by
  constructor
  · show (if ((runChunks chunks initState).1.mainTitle.isEmpty ||
        (runChunks chunks initState).1.slides.isEmpty) = true
      then some streamErrMsg else none) = some streamErrMsg ↔ _
    by_cases hc : ((runChunks chunks initState).1.mainTitle.isEmpty ||
        (runChunks chunks initState).1.slides.isEmpty) = true
    · rw [if_pos hc]
      simp only [Bool.or_eq_true] at hc
      exact ⟨fun _ => hc, fun _ => rfl⟩
    · rw [if_neg hc]
      simp only [Bool.or_eq_true] at hc
      constructor
      · intro h
        exact Option.noConfusion h
      · intro h
        exact absurd h hc
  · rfl

/-- C7: defaulting policy and idempotence of the record decoder.  For every
parsed record object that validation accepts, each optional field of the
produced slide equals the empty string (`image_prompt`, `speaker_notes`,
`subtitle`, `statistics`) or the empty array (`keyPoints`, `examples`)
whenever the corresponding property is missing or falsy; and a record
carrying none of the optional properties decodes to exactly the same slide
as the same record with those properties explicitly set to the empty
string / empty array. -/
theorem c7_defaulting_and_idempotence (kvs : List (List Char × JSVal)) (sl : Slide)
    (h : slideOfJson (JSVal.obj kvs) = some sl) :
    ((∀ v, lookupKV kvs kImagePrompt = some v → truthy v = false) →
      sl.image_prompt = JSVal.str []) ∧
    ((∀ v, lookupKV kvs kSpeakerNotes = some v → truthy v = false) →
      sl.speaker_notes = JSVal.str []) ∧
    ((∀ v, lookupKV kvs kSubtitle = some v → truthy v = false) →
      sl.subtitle = JSVal.str []) ∧
    ((∀ v, lookupKV kvs kStatistics = some v → truthy v = false) →
      sl.statistics = JSVal.str []) ∧
    ((∀ v, lookupKV kvs kKeyPoints = some v → truthy v = false) →
      sl.keyPoints = JSVal.arr []) ∧
    ((∀ v, lookupKV kvs kExamples = some v → truthy v = false) →
      sl.examples = JSVal.arr []) ∧
    (lookupKV kvs kImagePrompt = none → lookupKV kvs kSpeakerNotes = none →
      lookupKV kvs kSubtitle = none → lookupKV kvs kKeyPoints = none →
      lookupKV kvs kExamples = none → lookupKV kvs kStatistics = none →
      slideOfJson (JSVal.obj (kvs ++ emptyOptionalFields)) = some sl) := by
  unfold slideOfJson at h
  simp only [getField] at h
  cases hT : lookupKV kvs kTitle with
  | none =>
    rw [hT] at h
    simp at h
  | some t =>
  cases hC : lookupKV kvs kContent with
  | none =>
    rw [hT, hC] at h
    simp at h
  | some c =>
  cases hL : lookupKV kvs kLayout with
  | none =>
    rw [hT, hC, hL] at h
    simp at h
  | some l =>
  rw [hT, hC, hL] at h
  simp only [] at h
  by_cases htr : (truthy t && truthy c && truthy l) = true
  case neg =>
    rw [if_neg htr] at h
    exact absurd h (by simp)
  rw [if_pos htr] at h
  injection h with h2
  subst h2
  refine ⟨?_, ?_, ?_, ?_, ?_, ?_, ?_⟩
  · intro hyp
    show orEmptyStr (lookupKV kvs kImagePrompt) = JSVal.str []
    cases hIP : lookupKV kvs kImagePrompt with
    | none => rfl
    | some v =>
      have hf := hyp v hIP
      show (if truthy v = true then v else JSVal.str []) = JSVal.str []
      rw [if_neg (by simp [hf])]
  · intro hyp
    show orEmptyStr (lookupKV kvs kSpeakerNotes) = JSVal.str []
    cases hIP : lookupKV kvs kSpeakerNotes with
    | none => rfl
    | some v =>
      have hf := hyp v hIP
      show (if truthy v = true then v else JSVal.str []) = JSVal.str []
      rw [if_neg (by simp [hf])]
  · intro hyp
    show orEmptyStr (lookupKV kvs kSubtitle) = JSVal.str []
    cases hIP : lookupKV kvs kSubtitle with
    | none => rfl
    | some v =>
      have hf := hyp v hIP
      show (if truthy v = true then v else JSVal.str []) = JSVal.str []
      rw [if_neg (by simp [hf])]
  · intro hyp
    show orEmptyStr (lookupKV kvs kStatistics) = JSVal.str []
    cases hIP : lookupKV kvs kStatistics with
    | none => rfl
    | some v =>
      have hf := hyp v hIP
      show (if truthy v = true then v else JSVal.str []) = JSVal.str []
      rw [if_neg (by simp [hf])]
  · intro hyp
    show orEmptyArr (lookupKV kvs kKeyPoints) = JSVal.arr []
    cases hIP : lookupKV kvs kKeyPoints with
    | none => rfl
    | some v =>
      have hf := hyp v hIP
      show (if truthy v = true then v else JSVal.arr []) = JSVal.arr []
      rw [if_neg (by simp [hf])]
  · intro hyp
    show orEmptyArr (lookupKV kvs kExamples) = JSVal.arr []
    cases hIP : lookupKV kvs kExamples with
    | none => rfl
    | some v =>
      have hf := hyp v hIP
      show (if truthy v = true then v else JSVal.arr []) = JSVal.arr []
      rw [if_neg (by simp [hf])]
  · intro hip hsn hsub hkp hex hst
    have hT2 : lookupKV (kvs ++ emptyOptionalFields) kTitle = some t := by
      rw [lookupKV_append, hT]
    have hC2 : lookupKV (kvs ++ emptyOptionalFields) kContent = some c := by
      rw [lookupKV_append, hC]
    have hL2 : lookupKV (kvs ++ emptyOptionalFields) kLayout = some l := by
      rw [lookupKV_append, hL]
    have e1 : orEmptyStr (lookupKV (kvs ++ emptyOptionalFields) kImagePrompt) =
        orEmptyStr (lookupKV kvs kImagePrompt) := by
      rw [lookupKV_append, hip]
      rfl
    have e2 : orEmptyStr (lookupKV (kvs ++ emptyOptionalFields) kSpeakerNotes) =
        orEmptyStr (lookupKV kvs kSpeakerNotes) := by
      rw [lookupKV_append, hsn]
      rfl
    have e3 : orEmptyStr (lookupKV (kvs ++ emptyOptionalFields) kSubtitle) =
        orEmptyStr (lookupKV kvs kSubtitle) := by
      rw [lookupKV_append, hsub]
      rfl
    have e4 : orEmptyArr (lookupKV (kvs ++ emptyOptionalFields) kKeyPoints) =
        orEmptyArr (lookupKV kvs kKeyPoints) := by
      rw [lookupKV_append, hkp]
      rfl
    have e5 : orEmptyArr (lookupKV (kvs ++ emptyOptionalFields) kExamples) =
        orEmptyArr (lookupKV kvs kExamples) := by
      rw [lookupKV_append, hex]
      rfl
    have e6 : orEmptyStr (lookupKV (kvs ++ emptyOptionalFields) kStatistics) =
        orEmptyStr (lookupKV kvs kStatistics) := by
      rw [lookupKV_append, hst]
      rfl
    unfold slideOfJson
    simp only [getField]
    rw [hT2, hC2, hL2]
    simp only []
    rw [if_pos htr]
    refine congrArg some ?_
    rw [e1, e2, e3, e4, e5, e6]

/-- Witness for C7: a record carrying only the three required fields decodes
with every optional field defaulted, identically to the record with the
optional fields explicitly empty. -/
theorem c7_defaulting_and_idempotence_witness :
    slideOfJson (JSVal.obj (kvsDemo ++ emptyOptionalFields)) = some slDemo :=
  (c7_defaulting_and_idempotence kvsDemo slDemo rfl).2.2.2.2.2.2
    rfl rfl rfl rfl rfl rfl

set_option maxRecDepth 80000 in
/-- C8 counterexample: the decoder performs no closed-set check on `layout`.
The record body `c8Body` carries the layout tag `bogus_layout`, which is not
one of the specification's 15 tags, yet it decodes successfully, the bogus
tag is copied into the slide verbatim, and the extraction loop appends the
slide to the presentation. -/
theorem c8_counterexample :
    decodeSlideText c8Body = some c8Slide ∧
    c8Slide.layout = JSVal.str "bogus_layout".data ∧
    specLayoutTags.contains "bogus_layout".data = false ∧
    (extractLoopF "T".data c8Buf.length c8Buf []).slides = [c8Slide] :=
  ⟨rfl, rfl, by decide, rfl⟩

/-- C8 (amended): the record decoder does not check `layout` against the
fixed closed set of layout tags.  Acceptance enforces only truthiness of
`title`, `content` and `layout`, and an accepted slide's `layout` is the
record's `layout` property copied verbatim — so any record with a nonempty
`layout` string outside the 15-tag set is appended (see
the C8 counterexample). -/
theorem c8_layout_truthiness_only (kvs : List (List Char × JSVal)) (sl : Slide)
    (h : slideOfJson (JSVal.obj kvs) = some sl) :
    truthy sl.layout = true ∧ lookupKV kvs kLayout = some sl.layout := by
  unfold slideOfJson at h
  simp only [getField] at h
  cases hT : lookupKV kvs kTitle with
  | none =>
    rw [hT] at h
    simp at h
  | some t =>
  cases hC : lookupKV kvs kContent with
  | none =>
    rw [hT, hC] at h
    simp at h
  | some c =>
  cases hL : lookupKV kvs kLayout with
  | none =>
    rw [hT, hC, hL] at h
    simp at h
  | some l =>
  rw [hT, hC, hL] at h
  simp only [] at h
  by_cases htr : (truthy t && truthy c && truthy l) = true
  · rw [if_pos htr] at h
    injection h with h2
    subst h2
    simp only [Bool.and_eq_true] at htr
    refine ⟨htr.2, ?_⟩
    rfl
  · rw [if_neg htr] at h
    exact absurd h (by simp)

/-- Witness for C8 (amended): the bogus-layout record is accepted with its
layout copied verbatim. -/
theorem c8_layout_truthiness_only_witness :
    truthy c8Slide.layout = true ∧ lookupKV kvsBogus kLayout = some c8Slide.layout :=
  c8_layout_truthiness_only kvsBogus c8Slide rfl

/-- C9: per-chunk extraction-loop termination.  The extraction loop the
driver runs after each chunk — fuelled here by the buffer length, an upper
bound on its iterations since every productive iteration consumes at least
one end marker from the buffer — always reaches a genuine loop exit on any
buffer contents, well formed or not: the fuel never runs out, so no chunk
can cause an infinite extraction loop. -/
theorem c9_extraction_loop_termination (st : DriverState) (t1 b1 : List Char) :
    (extractLoopF t1 b1.length b1 st.slides).fuelOk = true :=
  extractLoopF_fuel t1 b1.length b1 st.slides le_rfl

/-- C10: snapshot aliasing.  In the store model of the driver (a heap of
slide arrays; `push` mutates the accumulator cell in place; each
intermediate yield allocates a fresh copy `[...presentation.slides]`; the
title yield allocates a fresh `[]`), the final `isComplete = true` snapshot
carries the accumulator cell itself, every earlier snapshot carries a cell
distinct from the accumulator, and dereferencing every snapshot's cell in
the FINAL heap reproduces exactly the pure model's snapshot sequence — so
appending later slides never mutates a previously emitted snapshot, while
the final snapshot shares the live array without a copy. -/
theorem c10_snapshot_aliasing (chunks : List (List Char)) :
    ((generateSlidesStreamR chunks).2.2.map
        (derefSnap (generateSlidesStreamR chunks).1) =
      (generateSlidesStream chunks).1) ∧
    (∃ pre fin, (generateSlidesStreamR chunks).2.2 = pre ++ [fin] ∧
      fin.2.1 = (generateSlidesStreamR chunks).2.1 ∧ fin.2.2 = true ∧
      (∀ s ∈ pre, s.2.1 ≠ (generateSlidesStreamR chunks).2.1)) := by
  have ha : (⟨[], [], 0, false⟩ : DriverStateR).acc <
      ([[]] : List (List Slide)).length := by
    decide
  obtain ⟨i1, i2, i3, i4, i5, i6, i7, i8, i9⟩ :=
    runChunksR_sim chunks ⟨[], [], 0, false⟩ [[]] ha
  simp only [] at i2 i3 i6 i8 i9
  have hinit : (⟨[], [], ([[]] : List (List Slide)).getD 0 [], false⟩ : DriverState) =
      initState := rfl
  rw [hinit] at i2 i6 i8
  constructor
  · show ((runChunksR chunks ⟨[], [], 0, false⟩ [[]]).2.2 ++
        [((runChunksR chunks ⟨[], [], 0, false⟩ [[]]).1.mainTitle,
          (runChunksR chunks ⟨[], [], 0, false⟩ [[]]).1.acc, true)]).map
        (derefSnap (runChunksR chunks ⟨[], [], 0, false⟩ [[]]).2.1) =
      (runChunks chunks initState).2 ++
        [⟨(runChunks chunks initState).1.mainTitle,
          (runChunks chunks initState).1.slides, true⟩]
    rw [List.map_append, i8]
    congr 1
    show [(⟨(runChunksR chunks ⟨[], [], 0, false⟩ [[]]).1.mainTitle,
      (runChunksR chunks ⟨[], [], 0, false⟩ [[]]).2.1.getD
        (runChunksR chunks ⟨[], [], 0, false⟩ [[]]).1.acc [], true⟩ : Snapshot)] = _
    rw [i3, i2, i6]
  · refine ⟨(runChunksR chunks ⟨[], [], 0, false⟩ [[]]).2.2,
      ((runChunksR chunks ⟨[], [], 0, false⟩ [[]]).1.mainTitle,
        (runChunksR chunks ⟨[], [], 0, false⟩ [[]]).1.acc, true), rfl, rfl, rfl, ?_⟩
    intro s hs
    obtain ⟨hs1, _⟩ := i9 s hs
    show s.2.1 ≠ (runChunksR chunks ⟨[], [], 0, false⟩ [[]]).1.acc
    rw [i3]
    exact hs1

end SlidesStream
